import Mathlib

/-!
Verification development for the WIPE interpreter embedded in the WASP
controller sketch (WASP_Controller_v5.00.ino).  Every definition below is a
shallow embedding of the C function of the same name; the comment above each
definition names the source function and describes how the C state is
rendered.  Machine integers are modelled as Nat or Int with explicit
wrapping where the C performs a narrowing conversion; the Arduino float type
is modelled as the rationals; the Arduino boolean type is modelled as Bool,
with its C integral conversions made explicit.
-/

namespace WASP

/-! ## Constants from the sketch -/

def WIPE_ID_UNDEF : Nat := 0
def WIPE_ID_LABEL : Nat := 1
def WIPE_ID_INT : Nat := 2
def WIPE_ID_FLOAT : Nat := 3
def WIPE_ID_BOOL : Nat := 4

def WIPE_OP_UNDEF : Nat := 0
def WIPE_OP_PLUS : Nat := 1
def WIPE_OP_MINUS : Nat := 2
def WIPE_OP_MULT : Nat := 3
def WIPE_OP_DIV : Nat := 4
def WIPE_OP_MOD : Nat := 5
def WIPE_OP_NEG : Nat := 6
def WIPE_OP_COMPL : Nat := 7
def WIPE_OP_OR : Nat := 8
def WIPE_OP_AND : Nat := 9
def WIPE_OP_EQ : Nat := 10
def WIPE_OP_NE : Nat := 11
def WIPE_OP_LT : Nat := 12
def WIPE_OP_LE : Nat := 13
def WIPE_OP_GT : Nat := 14
def WIPE_OP_GE : Nat := 15
def WIPE_OP_DELIM : Nat := 16

/-- Statement token identifiers: WIPE_BASE = LAST_NONCFG_CMD + 1 = 12 and
KEY_BASE = LAST_WIPE_CMD + 1 = 25, so the statement tokens resolve to the
concrete values below. -/
def WIPE_UNDEF : Nat := 0
def WIPE_FUNC : Nat := 26
def WIPE_LABEL : Nat := 27
def WIPE_GOTO : Nat := 28
def WIPE_IF : Nat := 29
def WIPE_LET : Nat := 30
def WIPE_PRINT : Nat := 31
def WIPE_VAR : Nat := 32
def WIPE_FN_PAUSE : Nat := 33

def WASPCMD_GROUP : Nat := 1
def WASPCMD_STATE : Nat := 2
def WASPCMD_BKGRD : Nat := 3
def WASPCMD_LINE : Nat := 4
def WASPCMD_SHIFT : Nat := 5
def WASPCMD_SWAP : Nat := 6
def WASPCMD_RESET : Nat := 7
def WASPCMD_SPEED : Nat := 8
def WASPCMD_RAINBOW : Nat := 9
def WASPCMD_RAINCYCLE : Nat := 10
def WASPCMD_TWINKLE : Nat := 11

def WIPE_PRT_STR : Nat := 0
def WIPE_PRT_VAR : Nat := 1

def TKNZD_LINE_OFFS : Nat := 0
def TKNZD_LEN_OFFS : Nat := 1
def TKNZD_STMT_OFFS : Nat := 2

/-- EEPROM_RESET_COUNT_ADDR (4095) minus EEPROM_FIRST_OPEN_ADDR (16) minus
DIR_PROG_OFFS (15). -/
def MAX_PROG_SIZE : Nat := 4064
def MAX_LINE_NUM : Nat := 255
def MAX_PROGNAME_LEN : Nat := 12
def DIR_NAME_OFFS : Nat := 2
def DIR_PROG_OFFS : Nat := 15
def EEPROM_PROG_DIR_START : Nat := 17
def EEPROM_PROG_LEN : Nat := 4078
def WIPE_MAX_PARMS : Nat := 7

/-! ## C value conversions -/

/-- Integral promotion a C plus-plus bool undergoes in arithmetic. -/
def boolToInt (b : Bool) : Int := if b then 1 else 0

/-- Narrowing an integral value back into a C plus-plus bool: nonzero maps
to true. -/
def intToBool (n : Int) : Bool := n != 0

/-- Narrowing an int32 value to uint8, as in the cast the sketch applies to
function parameters: the value is reduced modulo 256 (two-complement
low byte). -/
def toUint8 (v : Int) : Nat := (v.emod 256).toNat

/-! ## Expression Evaluator primitive operations -/

/-- wipeEvalBoolOperation (sketch lines 3025-3041).  Transliterated exactly:
the WIPE_OP_COMPL case lacks a break statement and so falls through into
the WIPE_OP_OR case, and the sketch computes OR with integer addition and
AND with integer subtraction on the promoted bool operands.  A result of
none renders the C return value false (operation invalid for the type). -/
def wipeEvalBoolOperation (value1 value2 : Bool) (operation : Nat) :
    Option Bool :=
  if operation = WIPE_OP_COMPL then
    some (intToBool (boolToInt (!value1) + boolToInt value2))
  else if operation = WIPE_OP_OR then
    some (intToBool (boolToInt value1 + boolToInt value2))
  else if operation = WIPE_OP_AND then
    some (intToBool (boolToInt value1 - boolToInt value2))
  else
    none

/-- wipeEvalFloatOperation (sketch lines 2988-3010), floats rendered as
rationals.  Transliterated exactly: the WIPE_OP_NEG case lacks a break
statement and so falls through into the WIPE_OP_PLUS case, adding value2
to the negated operand even though the function documentation states that
value2 is ignored for a unary operation.  At the only unary call site
(wipeParseExpression line 3788) value2 is the uninitialized local
dummyValue. -/
def wipeEvalFloatOperation (value1 value2 : ℚ) (operation : Nat) :
    Option ℚ :=
  if operation = WIPE_OP_NEG then
    some (-value1 + value2)
  else if operation = WIPE_OP_PLUS then
    some (value1 + value2)
  else if operation = WIPE_OP_MINUS then
    some (value1 - value2)
  else if operation = WIPE_OP_MULT then
    some (value1 * value2)
  else if operation = WIPE_OP_DIV then
    some (value1 / value2)
  else
    none

/-- wipeEvalIntOperation (sketch lines 2947-2973), int32 rendered as Int
(no overflow occurs in the claims proved below).  Here every case has its
break, so WIPE_OP_NEG genuinely negates. -/
def wipeEvalIntOperation (value1 value2 : Int) (operation : Nat) :
    Option Int :=
  if operation = WIPE_OP_NEG then
    some (-value1)
  else if operation = WIPE_OP_PLUS then
    some (value1 + value2)
  else if operation = WIPE_OP_MINUS then
    some (value1 - value2)
  else if operation = WIPE_OP_MULT then
    some (value1 * value2)
  else if operation = WIPE_OP_DIV then
    some (value1.tdiv value2)
  else if operation = WIPE_OP_MOD then
    some (value1.tmod value2)
  else
    none

/-! ## Symbol values and assignment coercion -/

/-- SymValue_t, the tagged rendering of the C value union.  The accessor
functions below render the union field reads; every union read the embedded
code performs happens at the tag the enclosing branch has just tested, so
the mismatched-tag rows (which render a raw bit reinterpretation) are never
exercised by the claims. -/
inductive SymValue
  | intV (v : Int)
  | floatV (q : ℚ)
  | boolV (b : Bool)
  deriving DecidableEq

/-- Union field read .intValue. -/
def SymValue.intValue : SymValue → Int
  | .intV v => v
  | .floatV _ => 0
  | .boolV b => if b then 1 else 0

/-- Union field read .floatValue. -/
def SymValue.floatValue : SymValue → ℚ
  | .intV v => (v : ℚ)
  | .floatV q => q
  | .boolV b => if b then 1 else 0

/-- Union field read .boolValue. -/
def SymValue.boolValue : SymValue → Bool
  | .intV v => v != 0
  | .floatV q => q != 0
  | .boolV b => b

/-- The cast (float)MININT32: minus 2 to the 31, exact in single
precision. -/
def MININT32f : ℚ := -(2 ^ 31)

/-- The cast (float)MAXINT32: single precision rounds 2147483647 up to
2 to the 31. -/
def MAXINT32f : ℚ := 2 ^ 31

/-- Truncation toward zero of a rational, rendering the C cast (int) applied
to a float. -/
def ratTruncToInt (q : ℚ) : Int := q.num.tdiv (q.den : Int)

/-- wipeAssign (sketch lines 3081-3139).  The pair returned is (C return
value, contents of the destination variable after the call); on every
failing path the C never writes through the var pointer, which the second
component records by returning the old contents.  The C statement
star-var = value copies the whole union, rendered by returning value
itself. -/
def wipeAssign (var : SymValue) (varType : Nat) (value : SymValue)
    (valType : Nat) : Bool × SymValue :=
  if varType = valType then
    (true, value)
  else if WIPE_ID_BOOL = varType then
    if WIPE_ID_INT = valType ∧ (0 = value.intValue ∨ 1 = value.intValue) then
      (true, value)
    else
      (false, var)
  else if WIPE_ID_INT = varType then
    if WIPE_ID_BOOL = valType then
      (true, value)
    else if WIPE_ID_FLOAT = valType then
      if MININT32f ≤ value.floatValue ∧ value.floatValue ≤ MAXINT32f then
        (true, SymValue.intV (ratTruncToInt value.floatValue))
      else
        (false, var)
    else
      (false, var)
  else if WIPE_ID_FLOAT = varType then
    if WIPE_ID_INT = valType then
      (true, SymValue.floatV (value.intValue : ℚ))
    else if WIPE_ID_BOOL = valType then
      (true, SymValue.floatV (if value.boolValue then 1 else 0))
    else
      (false, var)
  else
    (false, var)

/-! ## Claim C1 -/

/-- C1: the claim states that the boolean binary operators compute the
logical operations.  The code computes OR correctly (addition of the
promoted operands is nonzero exactly when one of them is true) but computes
AND as subtraction, so evaluating true AND true yields false.  This theorem
evaluates the embedded code at that failing input and records that logical
AND disagrees there, and also records that the OR half of the claim holds. -/
theorem wipeEvalBoolOperation_and_bug :
    wipeEvalBoolOperation true true WIPE_OP_AND = some false ∧
    (true && true) = true ∧
    (∀ a b : Bool, wipeEvalBoolOperation a b WIPE_OP_OR = some (a || b)) := by
  refine ⟨by decide, rfl, ?_⟩
  decide

/-! ## Claim C8 -/

/-- C8: the claim states that unary minus on a float operand v yields
exactly minus v.  Because the WIPE_OP_NEG case falls through into the
WIPE_OP_PLUS case, the code instead yields minus v plus value2, where the
call site passes the uninitialized dummyValue.  Evaluated at v = 1 with a
residual dummy value of 1, the code yields 0, which is not the negation
minus 1; the unary minus on the integer evaluator (which has its break) is
included for contrast. -/
theorem wipeEvalFloatOperation_neg_bug :
    wipeEvalFloatOperation 1 1 WIPE_OP_NEG = some 0 ∧
    (0 : ℚ) ≠ -1 ∧
    wipeEvalIntOperation 1 1 WIPE_OP_NEG = some (-1) := by
  refine ⟨?_, by norm_num, by decide⟩
  show some ((-1 : ℚ) + 1) = some 0
  norm_num

/-! ## Claim C7 -/

/-- C7: assigning an integer expression result to a boolean destination
variable succeeds exactly when the integer value is 0 or 1, and on any
other integer value the code reports failure (the caller prints the
wrong-type error) and leaves the destination contents unchanged. -/
theorem wipeAssign_bool_from_int (var : SymValue) (v : Int) :
    ((wipeAssign var WIPE_ID_BOOL (SymValue.intV v) WIPE_ID_INT).1 = true ↔
      (v = 0 ∨ v = 1)) ∧
    (¬ (v = 0 ∨ v = 1) →
      wipeAssign var WIPE_ID_BOOL (SymValue.intV v) WIPE_ID_INT =
        (false, var)) := by
  have hred : wipeAssign var WIPE_ID_BOOL (SymValue.intV v) WIPE_ID_INT =
      if 0 = v ∨ 1 = v then (true, SymValue.intV v) else (false, var) := by
    unfold wipeAssign
    norm_num [WIPE_ID_BOOL, WIPE_ID_INT, WIPE_ID_FLOAT, SymValue.intValue]
  rw [hred]
  by_cases h : 0 = v ∨ 1 = v
  · rw [if_pos h]
    refine ⟨⟨fun _ => ?_, fun _ => rfl⟩, fun hne => absurd ?_ hne⟩
    · rcases h with h | h
      · exact Or.inl h.symm
      · exact Or.inr h.symm
    · rcases h with h | h
      · exact Or.inl h.symm
      · exact Or.inr h.symm
  · rw [if_neg h]
    refine ⟨⟨fun hf => absurd hf (by simp), fun hv => absurd ?_ h⟩,
            fun _ => rfl⟩
    rcases hv with h0 | h1
    · exact Or.inl h0.symm
    · exact Or.inr h1.symm

/-- Witness for C7 at the concrete inputs named by the spec: assigning the
integer 2 to a boolean variable fails and leaves the variable unchanged,
while assigning the integer 1 succeeds. -/
theorem wipeAssign_bool_from_int_witness :
    wipeAssign (SymValue.boolV false) WIPE_ID_BOOL (SymValue.intV 2)
        WIPE_ID_INT = (false, SymValue.boolV false) ∧
    (wipeAssign (SymValue.boolV false) WIPE_ID_BOOL (SymValue.intV 1)
        WIPE_ID_INT).1 = true :=
  ⟨(wipeAssign_bool_from_int (SymValue.boolV false) 2).2 (by decide),
   ((wipeAssign_bool_from_int (SymValue.boolV false) 1).1).mpr (Or.inr rfl)⟩

/-! ## Tokenized Lines and the Program Buffer byte image

A Tokenized Line is the record `[lineNumber][length][statementKind][payload]`
(sketch comment at lines 4058-4094); the length byte is the total record
size, so adjacency in the Program Buffer is positional.  `progBytes` renders
the occupied prefix of m_program and `offsetOf` the byte offset at which
the i-th stored record begins. -/

structure TknzdLine where
  lineNum : Nat
  stmt : Nat
  payload : List Nat
  deriving DecidableEq

/-- Total record size in bytes: the three header bytes plus the payload. -/
def lineLen (l : TknzdLine) : Nat := l.payload.length + 3

/-- Byte image of one Tokenized Line. -/
def lineBytes (l : TknzdLine) : List Nat :=
  l.lineNum :: lineLen l :: l.stmt :: l.payload

/-- Byte image of the occupied prefix of m_program. -/
def progBytes (P : List TknzdLine) : List Nat :=
  (P.map lineBytes).join

/-- Byte offset of the start of the i-th stored record. -/
def offsetOf : List TknzdLine → Nat → Nat
  | _, 0 => 0
  | [], _ + 1 => 0
  | l :: rest, i + 1 => lineLen l + offsetOf rest i

theorem lineBytes_length (l : TknzdLine) : (lineBytes l).length = lineLen l := by
  simp [lineBytes, lineLen]

theorem lineLen_pos (l : TknzdLine) : 0 < lineLen l := by
  simp [lineLen]

theorem progBytes_cons (l : TknzdLine) (rest : List TknzdLine) :
    progBytes (l :: rest) = lineBytes l ++ progBytes rest := rfl

theorem progBytes_length (P : List TknzdLine) :
    (progBytes P).length = offsetOf P P.length := by
  induction P with
  | nil => rfl
  | cons l rest ih =>
      rw [progBytes_cons, List.length_append, lineBytes_length, ih,
        List.length_cons]
      rfl

/-- Reading byte k of record i out of the serialized buffer. -/
theorem progBytes_getD (P : List TknzdLine) (i k : Nat) (hi : i < P.length)
    (hk : k < lineLen (P.get ⟨i, hi⟩)) :
    (progBytes P).getD (offsetOf P i + k) 0 =
      (lineBytes (P.get ⟨i, hi⟩)).getD k 0 := by
  induction P generalizing i with
  | nil => exact absurd hi (Nat.not_lt_zero i)
  | cons l rest ih =>
      cases i with
      | zero =>
          show (lineBytes l ++ progBytes rest).getD (0 + k) 0 =
            (lineBytes l).getD k 0
          rw [Nat.zero_add, List.getD_append]
          rw [lineBytes_length]
          exact hk
      | succ i =>
          have hi' : i < rest.length := Nat.lt_of_succ_lt_succ hi
          show (lineBytes l ++ progBytes rest).getD
              (lineLen l + offsetOf rest i + k) 0 =
            (lineBytes (rest.get ⟨i, hi'⟩)).getD k 0
          rw [Nat.add_assoc, List.getD_append_right]
          · rw [lineBytes_length]
            have : lineLen l + (offsetOf rest i + k) - lineLen l =
                offsetOf rest i + k := by omega
            rw [this]
            exact ih i hi' hk
          · rw [lineBytes_length]
            omega

/-- The length byte of record i reads back as its record size. -/
theorem progBytes_len_byte (P : List TknzdLine) (i : Nat) (hi : i < P.length) :
    (progBytes P).getD (offsetOf P i + TKNZD_LEN_OFFS) 0 =
      lineLen (P.get ⟨i, hi⟩) := by
  have hk : 1 < lineLen (P.get ⟨i, hi⟩) := by
    simp only [lineLen]
    omega
  rw [show TKNZD_LEN_OFFS = 1 from rfl]
  rw [progBytes_getD P i 1 hi hk]
  rfl

theorem offsetOf_succ (P : List TknzdLine) (i : Nat) (hi : i < P.length) :
    offsetOf P (i + 1) = offsetOf P i + lineLen (P.get ⟨i, hi⟩) := by
  induction P generalizing i with
  | nil => exact absurd hi (Nat.not_lt_zero i)
  | cons l rest ih =>
      cases i with
      | zero =>
          show lineLen l + offsetOf rest 0 = 0 + lineLen l
          simp only [offsetOf]
          omega
      | succ i =>
          have hi' : i < rest.length := Nat.lt_of_succ_lt_succ hi
          have hget : (l :: rest).get ⟨i + 1, hi⟩ = rest.get ⟨i, hi'⟩ := rfl
          show lineLen l + offsetOf rest (i + 1) =
            lineLen l + offsetOf rest i + lineLen ((l :: rest).get ⟨i + 1, hi⟩)
          rw [hget, ih i hi']
          omega

theorem offsetOf_lt (P : List TknzdLine) (i j : Nat) (hij : i < j)
    (hj : j ≤ P.length) : offsetOf P i < offsetOf P j := by
  induction P generalizing i j with
  | nil =>
      simp only [List.length_nil] at hj
      omega
  | cons l rest ih =>
      cases j with
      | zero => omega
      | succ j =>
          cases i with
          | zero =>
              show 0 < lineLen l + offsetOf rest j
              have := lineLen_pos l
              omega
          | succ i =>
              have := ih i j (by omega) (by simpa using hj)
              show lineLen l + offsetOf rest i < lineLen l + offsetOf rest j
              omega

/-! ## Execution Engine: the conditional statement -/

/-- WIPE_IF arm of wipeExecuteStatement (sketch lines 4599-4625) plus the
common fall-through tail (line 4748).  The expression result is supplied as
the outcome of the wipeParseExpression call at line 4601 (none renders a
failed evaluation, whose arm returns the rc value MAX_PROG_SIZE).  On a
false condition the cursor is first moved past this record by its length
byte and then, when still inside the occupied region, past the following
record by that record's own length byte, independent of that record's
statement kind; on a true condition the common fall-through advances the
cursor by this record's length byte only. -/
def wipeExecuteIf (prog : List Nat) (wipeProgByte lineStart : Nat)
    (exprResult : Option Bool) : Nat :=
  match exprResult with
  | none => MAX_PROG_SIZE
  | some b =>
      if b = false then
        let next := lineStart + prog.getD (lineStart + TKNZD_LEN_OFFS) 0
        if next < wipeProgByte then
          next + prog.getD (next + TKNZD_LEN_OFFS) 0
        else
          MAX_PROG_SIZE
      else
        lineStart + prog.getD (lineStart + TKNZD_LEN_OFFS) 0

/-- C2: for a stored program with an if statement as record i, a false
condition moves the cursor to the start of record i plus 2 (exactly one
following physical record is skipped, whatever its statement kind, since
the record content is arbitrary here), while a true condition falls through
to record i plus 1. -/
theorem wipeExecuteIf_skip (P : List TknzdLine) (i : Nat)
    (hbyte : ∀ l ∈ P, lineLen l ≤ 255) (h : i + 1 < P.length) :
    wipeExecuteIf (progBytes P) (progBytes P).length (offsetOf P i)
        (some false) = offsetOf P (i + 2) ∧
    wipeExecuteIf (progBytes P) (progBytes P).length (offsetOf P i)
        (some true) = offsetOf P (i + 1) := by
  have hi : i < P.length := by omega
  have hlen1 := progBytes_len_byte P i hi
  have hoff1 := offsetOf_succ P i hi
  have hlen2 := progBytes_len_byte P (i + 1) h
  have hoff2 := offsetOf_succ P (i + 1) h
  have hnext : offsetOf P i + (progBytes P).getD (offsetOf P i + TKNZD_LEN_OFFS) 0
      = offsetOf P (i + 1) := by rw [hlen1]; omega
  constructor
  · show (if offsetOf P i + (progBytes P).getD (offsetOf P i + TKNZD_LEN_OFFS) 0 <
        (progBytes P).length then _ else _) = _
    rw [hnext, progBytes_length]
    rw [if_pos (offsetOf_lt P (i + 1) P.length h (Nat.le_refl _))]
    rw [hlen2]
    have hoff2' : offsetOf P (i + 2) =
        offsetOf P (i + 1) + lineLen (P.get ⟨i + 1, h⟩) := hoff2
    omega
  · show offsetOf P i + (progBytes P).getD (offsetOf P i + TKNZD_LEN_OFFS) 0
      = offsetOf P (i + 1)
    exact hnext

/-- Witness for C2 on a concrete three-line program: an if line followed by
a goto line and a print line; the false branch lands on the print line and
the true branch on the goto line. -/
theorem wipeExecuteIf_skip_witness :
    (∀ l ∈ [TknzdLine.mk 10 WIPE_IF [48, 0],
            TknzdLine.mk 20 WIPE_GOTO [76, 111, 111, 112, 0],
            TknzdLine.mk 30 WIPE_PRINT [1, 120, 0]], lineLen l ≤ 255) ∧
    0 + 1 < 3 ∧
    wipeExecuteIf
      (progBytes [TknzdLine.mk 10 WIPE_IF [48, 0],
                  TknzdLine.mk 20 WIPE_GOTO [76, 111, 111, 112, 0],
                  TknzdLine.mk 30 WIPE_PRINT [1, 120, 0]])
      (progBytes [TknzdLine.mk 10 WIPE_IF [48, 0],
                  TknzdLine.mk 20 WIPE_GOTO [76, 111, 111, 112, 0],
                  TknzdLine.mk 30 WIPE_PRINT [1, 120, 0]]).length
      (offsetOf [TknzdLine.mk 10 WIPE_IF [48, 0],
                 TknzdLine.mk 20 WIPE_GOTO [76, 111, 111, 112, 0],
                 TknzdLine.mk 30 WIPE_PRINT [1, 120, 0]] 0)
      (some false)
      = offsetOf [TknzdLine.mk 10 WIPE_IF [48, 0],
                  TknzdLine.mk 20 WIPE_GOTO [76, 111, 111, 112, 0],
                  TknzdLine.mk 30 WIPE_PRINT [1, 120, 0]] 2 :=
  ⟨by decide, by decide,
   (wipeExecuteIf_skip _ 0 (by decide) (by decide)).1⟩

/-! ## Execution Engine: function-call statements -/

/-- wipeFuncGetParmNum (sketch lines 4011-4031). -/
def wipeFuncGetParmNum (funcId : Nat) : Nat :=
  if funcId = WASPCMD_GROUP then 4
  else if funcId = WASPCMD_STATE then 2
  else if funcId = WASPCMD_BKGRD then 4
  else if funcId = WASPCMD_LINE then 6
  else if funcId = WASPCMD_SHIFT then 2
  else if funcId = WASPCMD_SWAP then 7
  else if funcId = WASPCMD_RESET then 1
  else if funcId = WASPCMD_SPEED then 2
  else if funcId = WASPCMD_RAINBOW then 2
  else if funcId = WASPCMD_RAINCYCLE then 1
  else if funcId = WASPCMD_TWINKLE then 5
  else if funcId = WIPE_FN_PAUSE then 3
  else 0

/-- Arguments the dispatch switch of wipeExecuteStatement (sketch lines
4542-4586) passes to the external command sink for each opcode, in the
exact positional order of the C call (note the reordering for the LINE
opcode).  The input p reads slot i of the parmValue array.  A none result
renders the default arm (unknown function, error return). -/
def funcSinkArgs (funcId : Nat) (p : Nat → Nat) : Option (List Nat) :=
  if funcId = WASPCMD_BKGRD then some [p 0, p 1, p 2, p 3]
  else if funcId = WASPCMD_GROUP then some [p 0, p 1, p 2, p 3]
  else if funcId = WASPCMD_LINE then some [p 0, p 4, p 5, p 1, p 2, p 3]
  else if funcId = WASPCMD_RESET then some [p 0]
  else if funcId = WASPCMD_STATE then some [p 0, p 1]
  else if funcId = WASPCMD_SHIFT then some [p 0, p 1]
  else if funcId = WASPCMD_SWAP then some [p 0, p 1, p 2, p 3, p 4, p 5, p 6]
  else if funcId = WASPCMD_RAINBOW then some [p 0, p 1]
  else if funcId = WASPCMD_RAINCYCLE then some [p 0]
  else if funcId = WASPCMD_SPEED then some [p 0, p 1]
  else if funcId = WASPCMD_TWINKLE then some [p 0, p 1, p 2, p 3, p 4]
  else if funcId = WIPE_FN_PAUSE then some [p 0, p 1, p 2]
  else none

/-- Parameter-evaluation loop of the WIPE_FUNC arm (sketch lines
4522-4541).  Each entry of evals is the outcome of the wipeParseExpression
call for one positional parameter (none renders a failed evaluation, which
makes the whole statement return the error value).  For a successful value
the loop records whether the out-of-range report fired (value below -128 or
above 255) and then stores the value narrowed to uint8 into the parmValue
array regardless; evaluation of the remaining parameters continues. -/
def funcParmLoop : Nat → List (Option Int) → Option (List Nat × List Bool)
  | 0, _ => some ([], [])
  | _ + 1, [] => none
  | _ + 1, none :: _ => none
  | n + 1, some v :: rest =>
      match funcParmLoop n rest with
      | none => none
      | some (ps, errs) =>
          some (toUint8 v :: ps, decide (v < -128 ∨ 255 < v) :: errs)

/-- Result of the WIPE_FUNC arm: the returned cursor, the single command
sink invocation (opcode and byte arguments) if one was made, and the
out-of-range report flags per parameter. -/
structure FuncExec where
  cursor : Nat
  sinkCall : Option (Nat × List Nat)
  rangeFlags : List Bool
  deriving DecidableEq

/-- WIPE_FUNC arm of wipeExecuteStatement (sketch lines 4513-4588) plus the
common fall-through tail (line 4748).  funcId and numParms are read from
the record bytes; the parameter loop narrows each evaluated value to one
byte; the dispatch invokes exactly one sink operation and the cursor then
advances past this record by its length byte. -/
def wipeExecuteFunc (prog : List Nat) (lineStart : Nat)
    (evals : List (Option Int)) : FuncExec :=
  match funcParmLoop (prog.getD (lineStart + TKNZD_STMT_OFFS + 2) 0) evals with
  | none => ⟨MAX_PROG_SIZE, none, []⟩
  | some (ps, errs) =>
      match funcSinkArgs (prog.getD (lineStart + TKNZD_STMT_OFFS + 1) 0)
          (fun i => ps.getD i 0) with
      | none => ⟨MAX_PROG_SIZE, none, errs⟩
      | some args =>
          ⟨lineStart + prog.getD (lineStart + TKNZD_LEN_OFFS) 0,
           some (prog.getD (lineStart + TKNZD_STMT_OFFS + 1) 0, args), errs⟩

theorem funcParmLoop_all_some (vals : List Int) :
    funcParmLoop vals.length (vals.map some) =
      some (vals.map toUint8,
            vals.map (fun v => decide (v < -128 ∨ 255 < v))) := by
  induction vals with
  | nil => rfl
  | cons v rest ih =>
      show funcParmLoop (rest.length + 1) (some v :: rest.map some) = _
      simp only [funcParmLoop, ih, List.map_cons]

/-- C10: when every parameter expression of a function-call statement
evaluates successfully to an integer and the opcode is a known one, the
statement is not aborted even if some value lies outside -128..255: the
out-of-range report flag fires for exactly the offending positions, the
command sink is still invoked once with every value narrowed to one byte,
and the cursor advances past the record so execution continues with the
next line. -/
theorem wipeExecuteFunc_out_of_range_continues (prog : List Nat)
    (lineStart : Nat) (vals : List Int)
    (hn : prog.getD (lineStart + TKNZD_STMT_OFFS + 2) 0 = vals.length)
    (hf : (funcSinkArgs (prog.getD (lineStart + TKNZD_STMT_OFFS + 1) 0)
        (fun i => (vals.map toUint8).getD i 0)).isSome = true) :
    (wipeExecuteFunc prog lineStart (vals.map some)).cursor =
      lineStart + prog.getD (lineStart + TKNZD_LEN_OFFS) 0 ∧
    (wipeExecuteFunc prog lineStart (vals.map some)).sinkCall =
      (funcSinkArgs (prog.getD (lineStart + TKNZD_STMT_OFFS + 1) 0)
        (fun i => (vals.map toUint8).getD i 0)).map
        (fun args => (prog.getD (lineStart + TKNZD_STMT_OFFS + 1) 0, args)) ∧
    (wipeExecuteFunc prog lineStart (vals.map some)).rangeFlags =
      vals.map (fun v => decide (v < -128 ∨ 255 < v)) := by
  obtain ⟨args, hargs⟩ := Option.isSome_iff_exists.mp hf
  unfold wipeExecuteFunc
  rw [hn, funcParmLoop_all_some]
  simp only [hargs, Option.map_some']
  refine ⟨?_, ?_, ?_⟩ <;> trivial

/-- Witness for C10: a Bkgrd record whose first parameter evaluates to 300
(outside -128..255).  The report flag fires for that parameter, the sink is
still invoked with the truncated byte 44, and the cursor advances to the
next record. -/
theorem wipeExecuteFunc_out_of_range_witness :
    wipeExecuteFunc [10, 11, 26, 3, 4, 40, 51, 48, 48, 41, 0] 0
        ([300, 0, 0, 0].map some) =
      ⟨11, some (3, [44, 0, 0, 0]), [true, false, false, false]⟩ ∧
    (300 : Int) > 255 := by
  have h := wipeExecuteFunc_out_of_range_continues
    [10, 11, 26, 3, 4, 40, 51, 48, 48, 41, 0] 0 [300, 0, 0, 0]
    (by decide) (by decide)
  refine ⟨?_, by decide⟩
  obtain ⟨h1, h2, h3⟩ := h
  have : wipeExecuteFunc [10, 11, 26, 3, 4, 40, 51, 48, 48, 41, 0] 0
      ([300, 0, 0, 0].map some) =
      ⟨(wipeExecuteFunc [10, 11, 26, 3, 4, 40, 51, 48, 48, 41, 0] 0
          ([300, 0, 0, 0].map some)).cursor,
       (wipeExecuteFunc [10, 11, 26, 3, 4, 40, 51, 48, 48, 41, 0] 0
          ([300, 0, 0, 0].map some)).sinkCall,
       (wipeExecuteFunc [10, 11, 26, 3, 4, 40, 51, 48, 48, 41, 0] 0
          ([300, 0, 0, 0].map some)).rangeFlags⟩ := rfl
  rw [this, h1, h2, h3]
  decide

/-! ## Program Store and Line Editor

The editor functions walk the Program Buffer record by record via the
length bytes and always move whole records (wipeDeleteLine removes one
record and compacts the following bytes downward; the insertion loop of
wipeSaveLine rotates the edit record bytes into position).  They are
rendered here at record granularity over the record list whose byte image
progBytes gives the occupied buffer prefix. -/

/-- Strictly ascending line numbers, the Program Buffer ordering
invariant. -/
def Ascending (P : List TknzdLine) : Prop :=
  List.Pairwise (fun a b => a.lineNum < b.lineNum) P

instance (P : List TknzdLine) : Decidable (Ascending P) := by
  unfold Ascending
  infer_instance

/-- wipeSeekLineStart (sketch lines 4769-4798): scan the stored records in
order; return the index of the first record whose line number is not less
than the target together with the exact-match flag, or none (rendering the
C return value MAX_PROG_SIZE) when every record number is below the
target. -/
def wipeSeekLineStart : List TknzdLine → Nat → Option (Nat × Bool)
  | [], _ => none
  | l :: rest, target =>
      if l.lineNum = target then some (0, true)
      else if l.lineNum < target then
        (wipeSeekLineStart rest target).map (fun r => (r.1 + 1, r.2))
      else some (0, false)

/-- Deletion loop of wipeDelLines (sketch lines 4849-4858): wipeDeleteLine
removes the record at the fixed scan position and compacts the following
bytes downward, so the loop keeps examining the record now at that position
and removes it while the position is inside the occupied region (the list
is nonempty) and the record number is within the upper bound. -/
def delLoop : List TknzdLine → Nat → List TknzdLine
  | [], _ => []
  | l :: rest, upper =>
      if l.lineNum ≤ upper then delLoop rest upper else l :: rest

/-- wipeDelLines (sketch lines 4842-4859): seek the first record with
number at least the lower bound, then run the deletion loop there.  A
failed seek leaves the buffer unchanged (the C loop guard fails at once at
position MAX_PROG_SIZE). -/
def wipeDelLines (P : List TknzdLine) (lower upper : Nat) : List TknzdLine :=
  match wipeSeekLineStart P lower with
  | none => P
  | some (idx, _) => P.take idx ++ delLoop (P.drop idx) upper

/-- wipeSaveLine (sketch lines 4918-4978): at entry the freshly compiled
edit record sits at the end of the occupied region (position
m_wipeLineStart), so the C seek scans the stored records followed by the
edit record.  An insert position equal to m_wipeLineStart means the edit
record is already in place (pure append).  Otherwise, on an exact match the
existing record is deleted first (wipeDeleteLine at line 4949) and the edit
record bytes are rotated down into the insert position by the nested loops
at lines 4952-4968, which at record granularity is the take-insert-drop
splice below.  The none result renders the out-of-memory return false. -/
def wipeSaveLine (stored : List TknzdLine) (edit : TknzdLine) :
    Option (List TknzdLine) :=
  match wipeSeekLineStart (stored ++ [edit]) edit.lineNum with
  | none => none
  | some (idx, isRepl) =>
      if idx = stored.length then some (stored ++ [edit])
      else if isRepl then
        some (stored.take idx ++ [edit] ++ stored.drop (idx + 1))
      else
        some (stored.take idx ++ [edit] ++ stored.drop idx)

/-- One Line Editor interaction on the stored program: a numbered
statement line routed through wipeSaveLine (a failed save leaves the
stored records unchanged, the harness having reset the write cursor), or a
del command routed through wipeDelLines. -/
inductive EditOp
  | save (edit : TknzdLine)
  | del (lower upper : Nat)

def applyEditOp (P : List TknzdLine) : EditOp → List TknzdLine
  | .save edit =>
      match wipeSaveLine P edit with
      | none => P
      | some P2 => P2
  | .del lower upper => wipeDelLines P lower upper

def applyEditOps (P : List TknzdLine) : List EditOp → List TknzdLine
  | [] => P
  | op :: ops => applyEditOps (applyEditOp P op) ops

theorem seek_none_spec (P : List TknzdLine) (t : Nat)
    (h : wipeSeekLineStart P t = none) : ∀ l ∈ P, l.lineNum < t := by
  induction P with
  | nil => intro l hl; cases hl
  | cons a rest ih =>
      intro l hl
      rw [wipeSeekLineStart] at h
      by_cases ha : a.lineNum = t
      · rw [if_pos ha] at h; cases h
      · rw [if_neg ha] at h
        by_cases hlt : a.lineNum < t
        · rw [if_pos hlt] at h
          have hrest : wipeSeekLineStart rest t = none := by
            cases hrec : wipeSeekLineStart rest t with
            | none => rfl
            | some r => rw [hrec] at h; cases h
          rcases List.mem_cons.mp hl with hl | hl
          · exact hl ▸ hlt
          · exact ih hrest l hl
        · rw [if_neg hlt] at h; cases h

theorem seek_some_spec (P : List TknzdLine) (t : Nat) :
    ∀ idx isRepl, wipeSeekLineStart P t = some (idx, isRepl) →
    idx < P.length ∧ (∀ l ∈ P.take idx, l.lineNum < t) ∧
    ∃ m, P.drop idx = m :: P.drop (idx + 1) ∧
      (if isRepl then m.lineNum = t else t < m.lineNum) := by
  induction P with
  | nil => intro idx isRepl h; cases h
  | cons a restP ih =>
      intro idx isRepl h
      rw [wipeSeekLineStart] at h
      by_cases ha : a.lineNum = t
      · rw [if_pos ha] at h
        injection h with h'
        injection h' with h1 h2
        subst h1; subst h2
        refine ⟨by simp, by simp, a, by simp, by simp [ha]⟩
      · rw [if_neg ha] at h
        by_cases hlt : a.lineNum < t
        · rw [if_pos hlt] at h
          cases hrec : wipeSeekLineStart restP t with
          | none => rw [hrec] at h; cases h
          | some r =>
              obtain ⟨i0, b0⟩ := r
              rw [hrec] at h
              simp only [Option.map_some'] at h
              injection h with h'
              injection h' with h1 h2
              subst h1; subst h2
              obtain ⟨ih1, ih2, m, hm1, hm2⟩ := ih i0 b0 hrec
              refine ⟨by simp; omega, ?_, m, ?_, hm2⟩
              · intro l hl
                rw [List.take_succ_cons] at hl
                rcases List.mem_cons.mp hl with hl | hl
                · exact hl ▸ hlt
                · exact ih2 l hl
              · rw [List.drop_succ_cons, List.drop_succ_cons]
                exact hm1
        · rw [if_neg hlt] at h
          injection h with h'
          injection h' with h1 h2
          subst h1; subst h2
          refine ⟨by simp, by simp, a, by simp, by simp; omega⟩

theorem delLoop_suffix (P : List TknzdLine) (u : Nat) :
    (delLoop P u).IsSuffix P := by
  induction P with
  | nil => exact List.nil_suffix
  | cons a rest ih =>
      show (if a.lineNum ≤ u then delLoop rest u else a :: rest).IsSuffix
        (a :: rest)
      by_cases ha : a.lineNum ≤ u
      · rw [if_pos ha]
        exact ih.trans (List.suffix_cons a rest)
      · rw [if_neg ha]

theorem wipeDelLines_sublist (P : List TknzdLine) (lo up : Nat) :
    (wipeDelLines P lo up).Sublist P := by
  unfold wipeDelLines
  cases hseek : wipeSeekLineStart P lo with
  | none => exact List.Sublist.refl P
  | some r =>
      obtain ⟨idx, b⟩ := r
      have hsub : (delLoop (P.drop idx) up).Sublist (P.drop idx) :=
        (delLoop_suffix _ _).sublist
      have hsub2 : (P.take idx ++ delLoop (P.drop idx) up).Sublist
          (P.take idx ++ P.drop idx) := hsub.append_left _
      rw [P.take_append_drop idx] at hsub2
      exact hsub2

theorem ascending_of_sublist {P Q : List TknzdLine} (h : Q.Sublist P)
    (hP : Ascending P) : Ascending Q := hP.sublist h

/-- Splicing one record between a block of smaller-numbered records and a
block of larger-numbered records keeps the numbers strictly ascending. -/
theorem ascending_splice (pre post : List TknzdLine) (edit : TknzdLine)
    (hpre : Ascending pre) (hpost : Ascending post)
    (h1 : ∀ a ∈ pre, a.lineNum < edit.lineNum)
    (h2 : ∀ b ∈ post, edit.lineNum < b.lineNum)
    (h3 : ∀ a ∈ pre, ∀ b ∈ post, a.lineNum < b.lineNum) :
    Ascending (pre ++ [edit] ++ post) := by
  unfold Ascending at *
  rw [List.append_assoc, List.pairwise_append]
  refine ⟨hpre, ?_, ?_⟩
  · rw [show [edit] ++ post = edit :: post from rfl, List.pairwise_cons]
    exact ⟨h2, hpost⟩
  · intro a ha b hb
    rcases List.mem_cons.mp hb with hb | hb
    · subst hb; exact h1 a ha
    · exact h3 a ha b hb

/-- Reduction of wipeSaveLine once the seek outcome is known. -/
theorem wipeSaveLine_eq (stored : List TknzdLine) (edit : TknzdLine)
    (idx : Nat) (isRepl : Bool)
    (hseek : wipeSeekLineStart (stored ++ [edit]) edit.lineNum =
      some (idx, isRepl)) :
    wipeSaveLine stored edit =
      if idx = stored.length then some (stored ++ [edit])
      else if isRepl then
        some (stored.take idx ++ [edit] ++ stored.drop (idx + 1))
      else
        some (stored.take idx ++ [edit] ++ stored.drop idx) := by
  unfold wipeSaveLine
  rw [hseek]

theorem wipeSaveLine_ascending (stored : List TknzdLine) (edit : TknzdLine)
    (hs : Ascending stored) (P2 : List TknzdLine)
    (h : wipeSaveLine stored edit = some P2) : Ascending P2 := by
  cases hseek : wipeSeekLineStart (stored ++ [edit]) edit.lineNum with
  | none => rw [wipeSaveLine, hseek] at h; cases h
  | some r =>
      obtain ⟨idx, isRepl⟩ := r
      rw [wipeSaveLine_eq stored edit idx isRepl hseek] at h
      obtain ⟨hidx, htake, m, hdropm, hm⟩ :=
        seek_some_spec (stored ++ [edit]) edit.lineNum idx isRepl hseek
      by_cases hend : idx = stored.length
      · rw [if_pos hend] at h
        injection h with h
        subst h
        subst hend
        have htake' : ∀ l ∈ stored, l.lineNum < edit.lineNum := by
          intro l hl
          apply htake
          rw [List.take_left]
          exact hl
        have hres := ascending_splice stored [] edit hs List.Pairwise.nil
          htake' (by intro b hb; cases hb) (by intro a _ b hb; cases hb)
        rwa [List.append_nil] at hres
      · rw [if_neg hend] at h
        have hidx' : idx < stored.length := by
          rw [List.length_append, List.length_singleton] at hidx
          omega
        have htakeS : (stored ++ [edit]).take idx = stored.take idx :=
          List.take_append_of_le_length (Nat.le_of_lt hidx')
        have hdropS : (stored ++ [edit]).drop idx =
            stored.drop idx ++ [edit] :=
          List.drop_append_of_le_length (Nat.le_of_lt hidx')
        have htake' : ∀ l ∈ stored.take idx, l.lineNum < edit.lineNum := by
          intro l hl
          apply htake
          rw [htakeS]
          exact hl
        obtain ⟨m', mrest', hm'⟩ : ∃ m' mrest',
            stored.drop idx = m' :: mrest' := by
          cases hd : stored.drop idx with
          | nil =>
              exfalso
              have hlen := congrArg List.length hd
              rw [List.length_drop] at hlen
              simp only [List.length_nil] at hlen
              omega
          | cons x xs => exact ⟨x, xs, rfl⟩
        have hme : m = m' := by
          rw [hdropS, hm'] at hdropm
          injection hdropm with h1 _
          exact h1.symm
        subst hme
        have hm'tail : mrest' = stored.drop (idx + 1) := by
          have h1 : (stored.drop idx).tail = stored.drop (idx + 1) := by
            rw [← List.tail_drop]
          rw [hm'] at h1
          simpa using h1
        -- Ordering facts across the split of stored at idx.
        have hpw : List.Pairwise (fun a b => a.lineNum < b.lineNum)
            (stored.take idx ++ stored.drop idx) := by
          rw [stored.take_append_drop idx]
          exact hs
        rw [List.pairwise_append] at hpw
        obtain ⟨hpre, hdropPW, hcross⟩ := hpw
        rw [hm', List.pairwise_cons] at hdropPW
        obtain ⟨hmlt, htailPW⟩ := hdropPW
        rw [hm'tail] at htailPW
        by_cases hrepl : isRepl = true
        · rw [if_pos hrepl] at h
          injection h with h
          subst h
          rw [hrepl, if_pos rfl] at hm
          -- hm : the deleted record had number equal to edit.lineNum.
          refine ascending_splice _ _ _ hpre htailPW htake' ?_ ?_
          · intro b hb
            have hmb : m.lineNum < b.lineNum := hmlt b (hm'tail ▸ hb)
            omega
          · intro a ha b hb
            exact hcross a ha b (by
              rw [hm']
              exact List.mem_cons_of_mem m (hm'tail ▸ hb))
        · rw [if_neg hrepl] at h
          injection h with h
          subst h
          have hrf : isRepl = false := by
            cases isRepl
            · rfl
            · exact absurd rfl hrepl
          rw [hrf] at hm
          simp only [Bool.false_eq_true, if_false] at hm
          -- hm : edit.lineNum is below the record at the insert position.
          refine ascending_splice _ _ _ hpre (by
            rw [hm']
            exact List.Pairwise.cons hmlt (hm'tail ▸ htailPW)) htake' ?_ ?_
          · intro b hb
            rw [hm'] at hb
            rcases List.mem_cons.mp hb with hb | hb
            · subst hb; exact hm
            · have hmb : m.lineNum < b.lineNum := hmlt b hb
              omega
          · intro a ha b hb
            exact hcross a ha b hb

theorem applyEditOp_ascending (P : List TknzdLine) (op : EditOp)
    (hP : Ascending P) : Ascending (applyEditOp P op) := by
  cases op with
  | save edit =>
      show Ascending (match wipeSaveLine P edit with
        | none => P
        | some P2 => P2)
      cases hsave : wipeSaveLine P edit with
      | none => exact hP
      | some P2 => exact wipeSaveLine_ascending P edit hP P2 hsave
  | del lower upper =>
      exact ascending_of_sublist (wipeDelLines_sublist P lower upper) hP
theorem applyEditOps_ascending (P : List TknzdLine) (ops : List EditOp)
    (hP : Ascending P) : Ascending (applyEditOps P ops) := by
  induction ops generalizing P with
  | nil => exact hP
  | cons op ops ih => exact ih _ (applyEditOp_ascending P op hP)

/-- C4: after every sequence of line insertions, replacements and ranged
deletions applied by the Line Editor to a Program Buffer whose stored
records are strictly ascending, the stored records are still strictly
ascending by line number, no two stored records share a line number, and
the byte image of the buffer is exactly the records packed back to back (a
contiguous prefix whose length is the sum of the record sizes). -/
theorem editor_preserves_invariant (P : List TknzdLine) (ops : List EditOp)
    (hP : Ascending P) :
    Ascending (applyEditOps P ops) ∧
    ((applyEditOps P ops).map TknzdLine.lineNum).Nodup ∧
    (progBytes (applyEditOps P ops)).length =
      ((applyEditOps P ops).map lineLen).sum := by
  have hasc := applyEditOps_ascending P ops hP
  refine ⟨hasc, ?_, ?_⟩
  · have hpm : ((applyEditOps P ops).map TknzdLine.lineNum).Pairwise (· < ·) :=
      List.pairwise_map.mpr hasc
    exact hpm.imp (fun h => Nat.ne_of_lt h)
  · rw [progBytes, List.length_join, List.map_map]
    congr 1

/-- Witness for C4: starting from the empty buffer, insert lines 10 and 5,
replace line 10, then delete range 5 to 7; the invariant holds and the
final buffer is the single replaced line 10. -/
theorem editor_preserves_invariant_witness :
    Ascending ([] : List TknzdLine) ∧
    (applyEditOps []
        [EditOp.save ⟨10, WIPE_LABEL, [76, 0]⟩,
         EditOp.save ⟨5, WIPE_GOTO, [76, 0]⟩,
         EditOp.save ⟨10, WIPE_PRINT, [1, 120, 0]⟩,
         EditOp.del 5 7] = [⟨10, WIPE_PRINT, [1, 120, 0]⟩]) ∧
    (Ascending (applyEditOps []
        [EditOp.save ⟨10, WIPE_LABEL, [76, 0]⟩,
         EditOp.save ⟨5, WIPE_GOTO, [76, 0]⟩,
         EditOp.save ⟨10, WIPE_PRINT, [1, 120, 0]⟩,
         EditOp.del 5 7]) ∧
     ((applyEditOps []
        [EditOp.save ⟨10, WIPE_LABEL, [76, 0]⟩,
         EditOp.save ⟨5, WIPE_GOTO, [76, 0]⟩,
         EditOp.save ⟨10, WIPE_PRINT, [1, 120, 0]⟩,
         EditOp.del 5 7]).map TknzdLine.lineNum).Nodup ∧
     (progBytes (applyEditOps []
        [EditOp.save ⟨10, WIPE_LABEL, [76, 0]⟩,
         EditOp.save ⟨5, WIPE_GOTO, [76, 0]⟩,
         EditOp.save ⟨10, WIPE_PRINT, [1, 120, 0]⟩,
         EditOp.del 5 7])).length =
      ((applyEditOps []
        [EditOp.save ⟨10, WIPE_LABEL, [76, 0]⟩,
         EditOp.save ⟨5, WIPE_GOTO, [76, 0]⟩,
         EditOp.save ⟨10, WIPE_PRINT, [1, 120, 0]⟩,
         EditOp.del 5 7]).map lineLen).sum) :=
  ⟨by decide, by decide,
   editor_preserves_invariant []
     [EditOp.save ⟨10, WIPE_LABEL, [76, 0]⟩,
      EditOp.save ⟨5, WIPE_GOTO, [76, 0]⟩,
      EditOp.save ⟨10, WIPE_PRINT, [1, 120, 0]⟩,
      EditOp.del 5 7] (by decide)⟩

/-! ## Renumbering -/

def LOWEST_LINE_NUM : Nat := 5

/-- Numbering loop of wipeRenumLines (sketch lines 4896-4903): walk the
records storing the uint8 accumulator newLineNum into the line-number byte
and adding the step with uint8 wraparound.  The wraparound after the final
record is computed by the C but never stored. -/
def renumLoop (step : Nat) : List TknzdLine → Nat → List TknzdLine
  | [], _ => []
  | l :: rest, newLineNum =>
      { l with lineNum := newLineNum } ::
        renumLoop step rest ((newLineNum + step) % 256)

/-- wipeRenumLines (sketch lines 4873-4904).  The first loop counts the
records (a uint8 counter; every reachable sorted buffer has at most 255
records since stored line numbers are distinct bytes).  The step is
(MAX_LINE_NUM - 2 * LOWEST_LINE_NUM) / (count - 1) = 245 / (count - 1);
for fewer than two records the C divisor is zero or negative (count is
promoted to int, so count = 0 gives divisor -1 and count = 1 divides by
zero, undefined), and in those cases no record receives a stepped number,
so the Nat convention 245 / 0 = 0 used here is observationally the same.
Only the line-number bytes change; statement bytes and payloads are left
alone. -/
def wipeRenumLines (P : List TknzdLine) : List TknzdLine :=
  renumLoop ((MAX_LINE_NUM - 2 * LOWEST_LINE_NUM) / (P.length - 1)) P
    LOWEST_LINE_NUM

/-- A 247-line program with distinct ascending line numbers 1..247; each
record is a label statement of 5 bytes, 1235 bytes in all, well inside the
4064-byte Program Buffer, so the buffer is reachable. -/
def renumExample : List TknzdLine :=
  (List.range 247).map (fun i => TknzdLine.mk (i + 1) WIPE_LABEL [65, 0])

theorem renumLoop_map_num (step : Nat) (L : List TknzdLine) :
    ∀ start, (∀ i, i < L.length → start + i * step ≤ 255) →
    (renumLoop step L start).map TknzdLine.lineNum =
      (List.range L.length).map (fun i => start + i * step) := by
  induction L with
  | nil => intro start _; rfl
  | cons l rest ih =>
      intro start hbound
      have hrhs : (List.range (rest.length + 1)).map
          (fun i => start + i * step) =
          (start + 0 * step) ::
            (List.range rest.length).map (fun i => start + (i + 1) * step) := by
        rw [List.range_succ_eq_map, List.map_cons, List.map_map]
        rfl
      show start :: (renumLoop step rest ((start + step) % 256)).map
          TknzdLine.lineNum =
        (List.range (rest.length + 1)).map (fun i => start + i * step)
      rw [hrhs]
      cases rest with
      | nil =>
          simp [renumLoop]
      | cons l2 rest2 =>
          have hwrap : (start + step) % 256 = start + step := by
            have h1 := hbound 1 (by
              simp only [List.length_cons]
              omega)
            omega
          rw [hwrap, ih (start + step) (by
            intro i hi
            have h2 := hbound (i + 1) (by
              simp only [List.length_cons] at hi ⊢
              omega)
            rw [Nat.succ_mul] at h2
            omega)]
          congr 1
          · omega
          · apply List.map_congr_left
            intro i _
            rw [Nat.succ_mul]
            omega

theorem renumLoop_keeps_content (step : Nat) (L : List TknzdLine) :
    ∀ start,
    (renumLoop step L start).map (fun l => (l.stmt, l.payload)) =
      L.map (fun l => (l.stmt, l.payload)) ∧
    (renumLoop step L start).length = L.length := by
  induction L with
  | nil => intro start; exact ⟨rfl, rfl⟩
  | cons l rest ih =>
      intro start
      obtain ⟨ih1, ih2⟩ := ih ((start + step) % 256)
      constructor
      · show (l.stmt, l.payload) :: _ = (l.stmt, l.payload) :: _
        rw [ih1]
      · show (renumLoop step rest _).length + 1 = rest.length + 1
        rw [ih2]

set_option maxRecDepth 8000 in
/-- Counterexample for C6 as stated: renumbering a sorted, reachable
247-line program gives every record the line number 5 (the uint8 step
245 / 246 truncates to zero), so the resulting numbers are not strictly
ascending. -/
theorem wipeRenumLines_collapse :
    renumExample ≠ [] ∧ Ascending renumExample ∧
    (wipeRenumLines renumExample).map TknzdLine.lineNum =
      List.replicate 247 LOWEST_LINE_NUM ∧
    ¬ Ascending (wipeRenumLines renumExample) := by
  refine ⟨by decide, by decide, by decide, ?_⟩
  intro h
  have hpm : ((wipeRenumLines renumExample).map TknzdLine.lineNum).Pairwise
      (· < ·) := List.pairwise_map.mpr h
  rw [show (wipeRenumLines renumExample).map TknzdLine.lineNum =
    List.replicate 247 LOWEST_LINE_NUM from by decide] at hpm
  exact absurd hpm (by decide)

/-- C6 amended: for every non-empty Program Buffer holding at most 246
stored records, renumbering preserves the number, relative order and
content (statement byte and payload bytes) of all records and assigns the
evenly spaced numbers 5 + i * (245 / (count - 1)), which all lie within
[5, 250] and are strictly ascending.  (With 247 or more records the step
truncates to zero and every number collapses to 5; at most 255 records can
be stored overall since line numbers are distinct bytes.) -/
theorem wipeRenumLines_spec (P : List TknzdLine) (hne : P ≠ [])
    (hcount : P.length ≤ 246) :
    (wipeRenumLines P).map TknzdLine.lineNum =
      (List.range P.length).map
        (fun i => LOWEST_LINE_NUM + i * (245 / (P.length - 1))) ∧
    (wipeRenumLines P).map (fun l => (l.stmt, l.payload)) =
      P.map (fun l => (l.stmt, l.payload)) ∧
    (wipeRenumLines P).length = P.length ∧
    (∀ n ∈ (wipeRenumLines P).map TknzdLine.lineNum,
      LOWEST_LINE_NUM ≤ n ∧ n ≤ 250) ∧
    Ascending (wipeRenumLines P) := by
  have hlen1 : 0 < P.length := List.length_pos.mpr hne
  have hLL : LOWEST_LINE_NUM = 5 := rfl
  have hwr : wipeRenumLines P = renumLoop (245 / (P.length - 1)) P 5 := by
    norm_num [wipeRenumLines, MAX_LINE_NUM, LOWEST_LINE_NUM]
  have hstep_mul : ∀ i, i ≤ P.length - 1 →
      i * (245 / (P.length - 1)) ≤ 245 := by
    intro i hi
    have h1 : i * (245 / (P.length - 1)) ≤
        (P.length - 1) * (245 / (P.length - 1)) :=
      Nat.mul_le_mul_right _ hi
    have h2 : (P.length - 1) * (245 / (P.length - 1)) ≤ 245 := by
      rw [Nat.mul_comm]
      exact Nat.div_mul_le_self 245 (P.length - 1)
    omega
  have hbound : ∀ i, i < P.length → 5 + i * (245 / (P.length - 1)) ≤ 255 := by
    intro i hi
    have := hstep_mul i (by omega)
    omega
  have hmap : (wipeRenumLines P).map TknzdLine.lineNum =
      (List.range P.length).map
        (fun i => 5 + i * (245 / (P.length - 1))) := by
    rw [hwr]
    exact renumLoop_map_num (245 / (P.length - 1)) P 5 hbound
  obtain ⟨hcontent, hlength⟩ :=
    renumLoop_keeps_content (245 / (P.length - 1)) P 5
  have hasc : ((List.range P.length).map
      (fun i => 5 + i * (245 / (P.length - 1)))).Pairwise (· < ·) := by
    rcases Nat.lt_or_ge P.length 2 with hl2 | hl2
    · have hP1 : P.length = 1 := by omega
      rw [hP1]
      simp
    · have hstep1 : 1 ≤ 245 / (P.length - 1) := by
        rw [Nat.one_le_div_iff (by omega : 0 < P.length - 1)]
        omega
      apply List.pairwise_map.mpr
      exact (List.pairwise_lt_range P.length).imp (fun {i j} hij => by
        have : i * (245 / (P.length - 1)) < j * (245 / (P.length - 1)) :=
          Nat.mul_lt_mul_of_lt_of_le hij (Nat.le_refl _) (by omega)
        omega)
  rw [hLL]
  refine ⟨hmap, by rw [hwr]; exact hcontent, by rw [hwr]; exact hlength,
    ?_, ?_⟩
  · intro n hn
    rw [hmap] at hn
    obtain ⟨i, hi, hin⟩ := List.mem_map.mp hn
    rw [List.mem_range] at hi
    have := hstep_mul i (by omega)
    omega
  · have hpm : ((wipeRenumLines P).map TknzdLine.lineNum).Pairwise (· < ·) := by
      rw [hmap]
      exact hasc
    exact List.pairwise_map.mp hpm

/-- Witness for the amended C6 on a concrete two-line program: the records
keep their content and order and receive the numbers 5 and 250. -/
theorem wipeRenumLines_spec_witness :
    ([TknzdLine.mk 100 WIPE_GOTO [76, 0], TknzdLine.mk 200 WIPE_LABEL [76, 0]]
        ≠ ([] : List TknzdLine)) ∧
    ([TknzdLine.mk 100 WIPE_GOTO [76, 0],
      TknzdLine.mk 200 WIPE_LABEL [76, 0]] : List TknzdLine).length ≤ 246 ∧
    (wipeRenumLines [TknzdLine.mk 100 WIPE_GOTO [76, 0],
        TknzdLine.mk 200 WIPE_LABEL [76, 0]]).map TknzdLine.lineNum =
      [5, 250] ∧
    Ascending (wipeRenumLines [TknzdLine.mk 100 WIPE_GOTO [76, 0],
        TknzdLine.mk 200 WIPE_LABEL [76, 0]]) :=
  ⟨by decide, by decide, by decide,
   (wipeRenumLines_spec [TknzdLine.mk 100 WIPE_GOTO [76, 0],
      TknzdLine.mk 200 WIPE_LABEL [76, 0]] (by decide) (by decide)).2.2.2.2⟩

/-! ## Statement Compiler

wipeParseStatement (sketch lines 4096-4370) consumes the console line only
through the lexer (wipeScanToken, wipeScanIdentifier, the inline strtok
calls) and through wipeParseExpression in syntax-check mode, and copies
expression source text verbatim out of m_consoleBuffer.  The StmtScan
record below carries the outcomes of exactly those calls and the copied
byte spans, so quantifying over StmtScan quantifies over every raw input
line; the Program Buffer writes and the write-cursor motion of the C are
rendered exactly. -/

structure CompileState where
  /-- m_program. -/
  program : List Nat
  /-- m_wipeProgByte, the occupied length and write cursor. -/
  wipeProgByte : Nat
  /-- m_wipeLineStart, start of the record being compiled. -/
  wipeLineStart : Nat
  deriving DecidableEq

/-- Write consecutive bytes starting at an index (renders the strcpy and
memcpy calls into m_program). -/
def progWriteList (p : List Nat) (start : Nat) : List Nat → List Nat
  | [] => p
  | b :: bs => progWriteList (p.set start b) (start + 1) bs

/-- Outcomes of the scanner and expression-parser calls made while
compiling one raw line. -/
structure StmtScan where
  /-- wipeScanToken outcome, or the prescanned initToken. -/
  token : Nat
  /-- first wipeScanIdentifier outcome: the identifier bytes, or none when
  a lexical error was reported. -/
  ident : Option (List Nat)
  /-- the equals-sign check of the let arm or the colon check of the var
  arm (sketch lines 4176-4183 and 4267-4274). -/
  sepOk : Bool
  /-- type-name identifier scan of the var arm. -/
  typeName : Option (List Nat)
  /-- wipeParseExpression outcome in syntax-check mode: the m_exprOffs
  source bytes copied verbatim plus the single extra byte the memcpy
  copies, or none on a reported parse failure. -/
  expr : Option (List Nat × Nat)
  /-- whether the print arm sees an opening double quote. -/
  printIsStr : Bool
  /-- processed string bytes (escapes applied) of a successful
  print-string scan. -/
  printStr : Option (List Nat)
  /-- bytes already emitted when a print-string scan overflows and
  fails. -/
  printPartial : List Nat
  /-- per-parameter outcomes of the function-call arm: the m_exprOffs of
  the parameter expression and the separator byte that follows it, or none
  on a reported parse failure. -/
  funcParms : List (Option (Nat × Nat))
  /-- the closing-parenthesis check after the last parameter (line
  4346). -/
  funcCloseOk : Bool
  /-- raw source bytes of the parameter list copied verbatim on
  success. -/
  funcSrc : List Nat

/-- Type-name comparison of the var arm (sketch lines 4282-4294); the byte
lists are the ASCII strings label, int, float and bool. -/
def varTypeId (tname : List Nat) : Option Nat :=
  if tname = [108, 97, 98, 101, 108] then some WIPE_ID_LABEL
  else if tname = [105, 110, 116] then some WIPE_ID_INT
  else if tname = [102, 108, 111, 97, 116] then some WIPE_ID_FLOAT
  else if tname = [98, 111, 111, 108] then some WIPE_ID_BOOL
  else none

/-- The function-call case labels of the statement switch (sketch lines
4305-4316). -/
def isFuncToken (tokenId : Nat) : Bool :=
  tokenId == WASPCMD_BKGRD || tokenId == WASPCMD_GROUP ||
  tokenId == WASPCMD_LINE || tokenId == WASPCMD_RESET ||
  tokenId == WASPCMD_STATE || tokenId == WASPCMD_SHIFT ||
  tokenId == WASPCMD_SWAP || tokenId == WASPCMD_RAINBOW ||
  tokenId == WASPCMD_RAINCYCLE || tokenId == WASPCMD_SPEED ||
  tokenId == WASPCMD_TWINKLE || tokenId == WIPE_FN_PAUSE

/-- Parameter-scanning loop of the function-call arm (sketch lines
4327-4344): each iteration parses one expression in syntax-check mode,
checks for a comma (44) or closing parenthesis (41) after it unless this
is the last parameter, and accumulates parmsLen.  none renders any failing
return. -/
def funcParmsScan : Nat → List (Option (Nat × Nat)) → Option Nat
  | 0, _ => some 0
  | _ + 1, [] => none
  | _ + 1, none :: _ => none
  | i + 1, some (eo, sep) :: rest =>
      if 1 ≤ i ∧ sep ≠ 44 ∧ sep ≠ 41 then none
      else (funcParmsScan i rest).map (fun acc => eo + acc)

/-- First n bytes of a source span, zero padded (the memcpy at line 4353
copies parmsLen + 1 bytes of console text). -/
def padTo (n : Nat) (src : List Nat) : List Nat :=
  (src ++ List.replicate n 0).take n

/-- The three header bytes written before the statement switch (sketch
lines 4117-4119): line number, a provisional length of 3, and the
statement token, each advancing the write cursor. -/
def headerState (lineNum token : Nat) (s : CompileState) : CompileState :=
  { s with
    program := progWriteList s.program s.wipeProgByte [lineNum, 3, token],
    wipeProgByte := s.wipeProgByte + 3 }

/-- WIPE_IF arm (sketch lines 4124-4141): parse the expression, copy its
source text plus one terminator byte at the cursor, advance the cursor by
m_exprOffs and back patch the length byte (m_wipeProgByte minus
m_wipeLineStart plus 1). -/
def parseIfArm (inp : StmtScan) (s : CompileState) : Bool × CompileState :=
  match inp.expr with
  | none => (false, s)
  | some (e, term) =>
      (true,
       { program := (progWriteList s.program s.wipeProgByte
            (e ++ [term])).set (s.wipeLineStart + TKNZD_LEN_OFFS)
            (s.wipeProgByte + e.length - s.wipeLineStart + 1),
         wipeProgByte := s.wipeProgByte + e.length,
         wipeLineStart := s.wipeLineStart })

/-- WIPE_GOTO and WIPE_LABEL arms (sketch lines 4142-4167): copy the
identifier with its terminator, advance the cursor and back patch the
length byte. -/
def parseGotoLabelArm (inp : StmtScan) (s : CompileState) :
    Bool × CompileState :=
  match inp.ident with
  | none => (false, s)
  | some name =>
      (true,
       { program := (progWriteList s.program s.wipeProgByte
            (name ++ [0])).set (s.wipeLineStart + TKNZD_LEN_OFFS)
            (s.wipeProgByte + name.length + 1 - s.wipeLineStart),
         wipeProgByte := s.wipeProgByte + name.length + 1,
         wipeLineStart := s.wipeLineStart })

/-- WIPE_LET arm (sketch lines 4168-4202): the identifier is copied before
the equals sign is checked, so the failing checks leave those bytes behind
the cursor; then the expression text is copied as in the if arm. -/
def parseLetArm (inp : StmtScan) (s : CompileState) : Bool × CompileState :=
  match inp.ident with
  | none => (false, s)
  | some name =>
      if inp.sepOk = false then
        (false,
         { program := progWriteList s.program s.wipeProgByte (name ++ [0]),
           wipeProgByte := s.wipeProgByte + name.length + 1,
           wipeLineStart := s.wipeLineStart })
      else
        match inp.expr with
        | none =>
            (false,
             { program := progWriteList s.program s.wipeProgByte
                  (name ++ [0]),
               wipeProgByte := s.wipeProgByte + name.length + 1,
               wipeLineStart := s.wipeLineStart })
        | some (e, term) =>
            (true,
             { program := (progWriteList (progWriteList s.program
                  s.wipeProgByte (name ++ [0]))
                  (s.wipeProgByte + name.length + 1) (e ++ [term])).set
                  (s.wipeLineStart + TKNZD_LEN_OFFS)
                  (s.wipeProgByte + name.length + 1 + e.length -
                    s.wipeLineStart + 1),
               wipeProgByte := s.wipeProgByte + name.length + 1 + e.length,
               wipeLineStart := s.wipeLineStart })

/-- WIPE_PRINT arm (sketch lines 4203-4260): a discriminator byte, then
either the processed string (written byte by byte while scanning, so a
failing scan leaves its partial bytes behind the advanced cursor) or an
identifier. -/
def parsePrintArm (inp : StmtScan) (s : CompileState) : Bool × CompileState :=
  if inp.printIsStr then
    match inp.printStr with
    | none =>
        (false,
         { program := progWriteList (s.program.set s.wipeProgByte
              WIPE_PRT_STR) (s.wipeProgByte + 1) inp.printPartial,
           wipeProgByte := s.wipeProgByte + 1 + inp.printPartial.length,
           wipeLineStart := s.wipeLineStart })
    | some str =>
        (true,
         { program := (progWriteList (s.program.set s.wipeProgByte
              WIPE_PRT_STR) (s.wipeProgByte + 1) (str ++ [0])).set
              (s.wipeLineStart + TKNZD_LEN_OFFS)
              (s.wipeProgByte + 1 + str.length + 1 - s.wipeLineStart),
           wipeProgByte := s.wipeProgByte + 1 + str.length + 1,
           wipeLineStart := s.wipeLineStart })
  else
    match inp.ident with
    | none =>
        (false,
         { program := s.program.set s.wipeProgByte WIPE_PRT_VAR,
           wipeProgByte := s.wipeProgByte + 1,
           wipeLineStart := s.wipeLineStart })
    | some name =>
        (true,
         { program := (progWriteList (s.program.set s.wipeProgByte
              WIPE_PRT_VAR) (s.wipeProgByte + 1) (name ++ [0])).set
              (s.wipeLineStart + TKNZD_LEN_OFFS)
              (s.wipeProgByte + 1 + name.length + 1 - s.wipeLineStart),
           wipeProgByte := s.wipeProgByte + 1 + name.length + 1,
           wipeLineStart := s.wipeLineStart })

/-- WIPE_VAR arm (sketch lines 4261-4304): identifier, colon, type name;
the identifier and the type byte are written only after every check has
passed. -/
def parseVarArm (inp : StmtScan) (s : CompileState) : Bool × CompileState :=
  match inp.ident with
  | none => (false, s)
  | some name =>
      if inp.sepOk = false then (false, s)
      else
        match inp.typeName with
        | none => (false, s)
        | some tname =>
            match varTypeId tname with
            | none => (false, s)
            | some typeId =>
                (true,
                 { program := (progWriteList s.program s.wipeProgByte
                      (name ++ [0] ++ [typeId])).set
                      (s.wipeLineStart + TKNZD_LEN_OFFS)
                      (s.wipeProgByte + name.length + 2 - s.wipeLineStart),
                   wipeProgByte := s.wipeProgByte + name.length + 2,
                   wipeLineStart := s.wipeLineStart })

/-- Function-call arm (sketch lines 4305-4363): back the cursor up over
the statement byte, write WIPE_FUNC, the opcode and the parameter count
(these three bytes are written before the parameter loop runs, so every
leaf below carries them), run the parameter-scanning loop, check the
closing parenthesis, then copy the raw parameter text, store a trailing
zero without advancing the cursor, and back patch the length byte. -/
def parseFuncArm (tokenId : Nat) (inp : StmtScan) (s : CompileState) :
    Bool × CompileState :=
  match funcParmsScan (wipeFuncGetParmNum tokenId) inp.funcParms with
  | none =>
      (false,
       { program := progWriteList s.program (s.wipeProgByte - 1)
            [WIPE_FUNC, tokenId, wipeFuncGetParmNum tokenId],
         wipeProgByte := s.wipeProgByte - 1 + 3,
         wipeLineStart := s.wipeLineStart })
  | some parmsLen =>
      if inp.funcCloseOk = false then
        (false,
         { program := progWriteList s.program (s.wipeProgByte - 1)
              [WIPE_FUNC, tokenId, wipeFuncGetParmNum tokenId],
           wipeProgByte := s.wipeProgByte - 1 + 3,
           wipeLineStart := s.wipeLineStart })
      else
        (true,
         { program := ((progWriteList (progWriteList s.program
              (s.wipeProgByte - 1)
              [WIPE_FUNC, tokenId, wipeFuncGetParmNum tokenId])
              (s.wipeProgByte - 1 + 3)
              (padTo (parmsLen + 1) inp.funcSrc)).set
              (s.wipeProgByte - 1 + 3 + parmsLen + 1) 0).set
              (s.wipeLineStart + TKNZD_LEN_OFFS)
              (s.wipeProgByte - 1 + 3 + parmsLen + 1 - s.wipeLineStart + 1),
           wipeProgByte := s.wipeProgByte - 1 + 3 + parmsLen + 1,
           wipeLineStart := s.wipeLineStart })

/-- wipeParseStatement (sketch lines 4096-4370): an undefined token fails
before anything is written; otherwise the three header bytes are written
and the statement switch dispatches on the token. -/
def wipeParseStatement (inp : StmtScan) (lineNum : Nat) (s : CompileState) :
    Bool × CompileState :=
  if inp.token = WIPE_UNDEF then (false, s)
  else if inp.token = WIPE_IF then
    parseIfArm inp (headerState lineNum inp.token s)
  else if inp.token = WIPE_GOTO then
    parseGotoLabelArm inp (headerState lineNum inp.token s)
  else if inp.token = WIPE_LABEL then
    parseGotoLabelArm inp (headerState lineNum inp.token s)
  else if inp.token = WIPE_LET then
    parseLetArm inp (headerState lineNum inp.token s)
  else if inp.token = WIPE_PRINT then
    parsePrintArm inp (headerState lineNum inp.token s)
  else if inp.token = WIPE_VAR then
    parseVarArm inp (headerState lineNum inp.token s)
  else if isFuncToken inp.token then
    parseFuncArm inp.token inp (headerState lineNum inp.token s)
  else (false, headerState lineNum inp.token s)

/-! Byte-level Line Editor functions used by the console harness after a
successful compile of a numbered line.  They render the byte loops of the
sketch directly; the record-granularity rendering above is what the
ordering claims are proved against. -/

/-- wipeSeekLineStart at byte level (sketch lines 4769-4798), walking the
records by their length bytes; the fuel bounds the walk (one step per
record, so MAX_PROG_SIZE steps always suffice on well-formed buffers) and
fuel exhaustion renders a scan that never reaches the target. -/
def seekLoopB (prog : List Nat) (wipeProgByte target : Nat) :
    Nat → Nat → Option (Nat × Bool)
  | 0, _ => none
  | fuel + 1, currPos =>
      if currPos < MAX_PROG_SIZE ∧ currPos < wipeProgByte then
        if prog.getD (currPos + TKNZD_LINE_OFFS) 0 = target then
          some (currPos, true)
        else if prog.getD (currPos + TKNZD_LINE_OFFS) 0 < target then
          seekLoopB prog wipeProgByte target fuel
            (currPos + prog.getD (currPos + TKNZD_LEN_OFFS) 0)
        else some (currPos, false)
      else none

/-- Byte copy walking upward (the compacting loop of wipeDeleteLine at
lines 4824-4825). -/
def copyDown (prog : List Nat) : Nat → Nat → Nat → List Nat
  | _, _, 0 => prog
  | dst, src, n + 1 =>
      copyDown (prog.set dst (prog.getD src 0)) (dst + 1) (src + 1) n

/-- wipeDeleteLine (sketch lines 4815-4828). -/
def wipeDeleteLineB (s : CompileState) (lineStart lineLenB : Nat) :
    CompileState :=
  { program := copyDown s.program lineStart
      (lineStart + s.program.getD (lineStart + TKNZD_LEN_OFFS) 0)
      (s.wipeProgByte - lineLenB + 1),
    wipeProgByte := s.wipeProgByte - lineLenB,
    wipeLineStart := s.wipeLineStart - lineLenB }

/-- Inner byte shift of the wipeSaveLine insertion loop (lines 4962-4965):
move numBytesToMove bytes up by one, walking downward from dst. -/
def shiftUp (prog : List Nat) : Nat → Nat → List Nat
  | _, 0 => prog
  | dst, j + 1 => shiftUp (prog.set dst (prog.getD (dst - 1) 0)) (dst - 1) j

/-- Insertion loop of wipeSaveLine (lines 4953-4968): for each byte of the
edit record, note the byte, shift the block up by one and store the noted
byte at the insert position. -/
def insertLoopB (insertPos lineStartPos numBytesToMove : Nat) :
    List Nat → Nat → Nat → List Nat
  | prog, _, 0 => prog
  | prog, i, k + 1 =>
      insertLoopB insertPos lineStartPos numBytesToMove
        ((shiftUp prog (lineStartPos + i) numBytesToMove).set
          (insertPos + i) (prog.getD (lineStartPos + i) 0)) (i + 1) k

/-- wipeSaveLine (sketch lines 4918-4978) at byte level. -/
def wipeSaveLineB (s : CompileState) : Bool × CompileState :=
  match seekLoopB s.program s.wipeProgByte
      (s.program.getD (s.wipeLineStart + TKNZD_LINE_OFFS) 0)
      MAX_PROG_SIZE 0 with
  | none => (false, s)
  | some (insertPos, isRepl) =>
      if insertPos = s.wipeLineStart then
        (true, { s with wipeLineStart := s.wipeLineStart +
          s.program.getD (s.wipeLineStart + TKNZD_LEN_OFFS) 0 })
      else
        match (if isRepl then
            wipeDeleteLineB s insertPos
              (s.program.getD (insertPos + TKNZD_LEN_OFFS) 0)
          else s) with
        | s1 =>
            (true, { s1 with
              program := insertLoopB insertPos s1.wipeLineStart
                (s1.wipeLineStart - insertPos) s1.program 0
                (s.program.getD (s.wipeLineStart + TKNZD_LEN_OFFS) 0),
              wipeLineStart := s1.wipeLineStart +
                s.program.getD (s.wipeLineStart + TKNZD_LEN_OFFS) 0 })

/-- Statement path of processWipeCommand (sketch lines 5218-5377): line
5225 records the occupied length in m_wipeLineStart before the parse; on
success a numbered line is spliced into place by wipeSaveLine and an
immediate line is executed after resetting the cursor (line 5365;
execution never writes the Program Buffer); in every case line 5376
finally sets m_wipeProgByte back to m_wipeLineStart, discarding any bytes
beyond it. -/
def processWipeStatementLine (inp : StmtScan) (lineNum : Nat)
    (saveToRam : Bool) (s0 : CompileState) : CompileState :=
  if (wipeParseStatement inp lineNum
        { s0 with wipeLineStart := s0.wipeProgByte }).1 then
    if saveToRam then
      { (wipeSaveLineB (wipeParseStatement inp lineNum
            { s0 with wipeLineStart := s0.wipeProgByte }).2).2 with
        wipeProgByte := (wipeSaveLineB (wipeParseStatement inp lineNum
            { s0 with wipeLineStart := s0.wipeProgByte }).2).2.wipeLineStart }
    else
      { (wipeParseStatement inp lineNum
            { s0 with wipeLineStart := s0.wipeProgByte }).2 with
        wipeProgByte := (wipeParseStatement inp lineNum
            { s0 with wipeLineStart := s0.wipeProgByte }).2.wipeLineStart }
  else
    { (wipeParseStatement inp lineNum
          { s0 with wipeLineStart := s0.wipeProgByte }).2 with
      wipeProgByte := (wipeParseStatement inp lineNum
          { s0 with wipeLineStart := s0.wipeProgByte }).2.wipeLineStart }

theorem getD_set_ne (p : List Nat) (j v i : Nat) (h : i ≠ j) :
    (p.set j v).getD i 0 = p.getD i 0 := by
  rw [List.getD_eq_getElem?_getD, List.getD_eq_getElem?_getD,
    List.getElem?_set_ne (Ne.symm h)]

theorem progWriteList_getD_lt (bs : List Nat) :
    ∀ (p : List Nat) (start i : Nat), i < start →
    (progWriteList p start bs).getD i 0 = p.getD i 0 := by
  induction bs with
  | nil => intro p start i _; rfl
  | cons b bs ih =>
      intro p start i hi
      show (progWriteList (p.set start b) (start + 1) bs).getD i 0 = _
      rw [ih _ _ _ (by omega), getD_set_ne _ _ _ _ (by omega)]

/-- Uniform description of a statement arm: the arm never touches
m_wipeLineStart, and every byte it writes lies at or beyond the byte
before the pre-arm cursor or at the length-byte position. -/
def ArmEffect (s : CompileState) (r : Bool × CompileState) : Prop :=
  r.2.wipeLineStart = s.wipeLineStart ∧
  ∀ i, i + 1 < s.wipeProgByte → i < s.wipeLineStart + 1 →
    r.2.program.getD i 0 = s.program.getD i 0

theorem parseIfArm_effect (inp : StmtScan) (s : CompileState) :
    ArmEffect s (parseIfArm inp s) := by
  unfold parseIfArm ArmEffect
  split
  · exact ⟨rfl, fun i _ _ => rfl⟩
  · refine ⟨rfl, ?_⟩
    intro i h1 h2
    show ((progWriteList s.program s.wipeProgByte _).set
        (s.wipeLineStart + TKNZD_LEN_OFFS) _).getD i 0 = s.program.getD i 0
    rw [getD_set_ne _ _ _ _ (by
      rw [show TKNZD_LEN_OFFS = 1 from rfl]
      omega)]
    exact progWriteList_getD_lt _ _ _ _ (by omega)

theorem parseGotoLabelArm_effect (inp : StmtScan) (s : CompileState) :
    ArmEffect s (parseGotoLabelArm inp s) := by
  unfold parseGotoLabelArm ArmEffect
  split
  · exact ⟨rfl, fun i _ _ => rfl⟩
  · refine ⟨rfl, ?_⟩
    intro i h1 h2
    show ((progWriteList s.program s.wipeProgByte _).set
        (s.wipeLineStart + TKNZD_LEN_OFFS) _).getD i 0 = s.program.getD i 0
    rw [getD_set_ne _ _ _ _ (by
      rw [show TKNZD_LEN_OFFS = 1 from rfl]
      omega)]
    exact progWriteList_getD_lt _ _ _ _ (by omega)

theorem parseLetArm_effect (inp : StmtScan) (s : CompileState) :
    ArmEffect s (parseLetArm inp s) := by
  unfold parseLetArm ArmEffect
  split
  · exact ⟨rfl, fun i _ _ => rfl⟩
  · split
    · refine ⟨rfl, ?_⟩
      intro i h1 h2
      show (progWriteList s.program s.wipeProgByte _).getD i 0 =
        s.program.getD i 0
      exact progWriteList_getD_lt _ _ _ _ (by omega)
    · split
      · refine ⟨rfl, ?_⟩
        intro i h1 h2
        show (progWriteList s.program s.wipeProgByte _).getD i 0 =
          s.program.getD i 0
        exact progWriteList_getD_lt _ _ _ _ (by omega)
      · refine ⟨rfl, ?_⟩
        intro i h1 h2
        show ((progWriteList (progWriteList s.program s.wipeProgByte _)
            (s.wipeProgByte + _ + 1) _).set
            (s.wipeLineStart + TKNZD_LEN_OFFS) _).getD i 0 =
          s.program.getD i 0
        rw [getD_set_ne _ _ _ _ (by
          rw [show TKNZD_LEN_OFFS = 1 from rfl]
          omega)]
        rw [progWriteList_getD_lt _ _ _ _ (by omega)]
        exact progWriteList_getD_lt _ _ _ _ (by omega)

theorem parsePrintArm_effect (inp : StmtScan) (s : CompileState) :
    ArmEffect s (parsePrintArm inp s) := by
  unfold parsePrintArm ArmEffect
  split
  · split
    · refine ⟨rfl, ?_⟩
      intro i h1 h2
      show (progWriteList (s.program.set s.wipeProgByte WIPE_PRT_STR)
          (s.wipeProgByte + 1) _).getD i 0 = s.program.getD i 0
      rw [progWriteList_getD_lt _ _ _ _ (by omega)]
      exact getD_set_ne _ _ _ _ (by omega)
    · refine ⟨rfl, ?_⟩
      intro i h1 h2
      show ((progWriteList (s.program.set s.wipeProgByte WIPE_PRT_STR)
          (s.wipeProgByte + 1) _).set
          (s.wipeLineStart + TKNZD_LEN_OFFS) _).getD i 0 = s.program.getD i 0
      rw [getD_set_ne _ _ _ _ (by
        rw [show TKNZD_LEN_OFFS = 1 from rfl]
        omega)]
      rw [progWriteList_getD_lt _ _ _ _ (by omega)]
      exact getD_set_ne _ _ _ _ (by omega)
  · split
    · refine ⟨rfl, ?_⟩
      intro i h1 h2
      show (s.program.set s.wipeProgByte WIPE_PRT_VAR).getD i 0 =
        s.program.getD i 0
      exact getD_set_ne _ _ _ _ (by omega)
    · refine ⟨rfl, ?_⟩
      intro i h1 h2
      show ((progWriteList (s.program.set s.wipeProgByte WIPE_PRT_VAR)
          (s.wipeProgByte + 1) _).set
          (s.wipeLineStart + TKNZD_LEN_OFFS) _).getD i 0 = s.program.getD i 0
      rw [getD_set_ne _ _ _ _ (by
        rw [show TKNZD_LEN_OFFS = 1 from rfl]
        omega)]
      rw [progWriteList_getD_lt _ _ _ _ (by omega)]
      exact getD_set_ne _ _ _ _ (by omega)

theorem parseVarArm_effect (inp : StmtScan) (s : CompileState) :
    ArmEffect s (parseVarArm inp s) := by
  unfold parseVarArm ArmEffect
  split
  · exact ⟨rfl, fun i _ _ => rfl⟩
  · split
    · exact ⟨rfl, fun i _ _ => rfl⟩
    · split
      · exact ⟨rfl, fun i _ _ => rfl⟩
      · split
        · exact ⟨rfl, fun i _ _ => rfl⟩
        · refine ⟨rfl, ?_⟩
          intro i h1 h2
          show ((progWriteList s.program s.wipeProgByte _).set
              (s.wipeLineStart + TKNZD_LEN_OFFS) _).getD i 0 =
            s.program.getD i 0
          rw [getD_set_ne _ _ _ _ (by
            rw [show TKNZD_LEN_OFFS = 1 from rfl]
            omega)]
          exact progWriteList_getD_lt _ _ _ _ (by omega)

theorem parseFuncArm_effect (tokenId : Nat) (inp : StmtScan)
    (s : CompileState) : ArmEffect s (parseFuncArm tokenId inp s) := by
  unfold parseFuncArm ArmEffect
  split
  · refine ⟨rfl, ?_⟩
    intro i h1 h2
    show (progWriteList s.program (s.wipeProgByte - 1) _).getD i 0 =
      s.program.getD i 0
    exact progWriteList_getD_lt _ _ _ _ (by omega)
  · split
    · refine ⟨rfl, ?_⟩
      intro i h1 h2
      show (progWriteList s.program (s.wipeProgByte - 1) _).getD i 0 =
        s.program.getD i 0
      exact progWriteList_getD_lt _ _ _ _ (by omega)
    · refine ⟨rfl, ?_⟩
      intro i h1 h2
      show (((progWriteList (progWriteList s.program (s.wipeProgByte - 1) _)
          (s.wipeProgByte - 1 + 3) _).set
          (s.wipeProgByte - 1 + 3 + _ + 1) 0).set
          (s.wipeLineStart + TKNZD_LEN_OFFS) _).getD i 0 =
        s.program.getD i 0
      rw [getD_set_ne _ _ _ _ (by
        rw [show TKNZD_LEN_OFFS = 1 from rfl]
        omega)]
      rw [getD_set_ne _ _ _ _ (by omega)]
      rw [progWriteList_getD_lt _ _ _ _ (by omega)]
      exact progWriteList_getD_lt _ _ _ _ (by omega)

theorem wipeParseStatement_effect (inp : StmtScan) (lineNum : Nat)
    (s : CompileState) :
    (wipeParseStatement inp lineNum s).2.wipeLineStart = s.wipeLineStart ∧
    ∀ i, i < s.wipeProgByte → i < s.wipeLineStart →
      (wipeParseStatement inp lineNum s).2.program.getD i 0 =
        s.program.getD i 0 := by
  have hheader : ∀ i, i < s.wipeProgByte →
      (headerState lineNum inp.token s).program.getD i 0 =
        s.program.getD i 0 := by
    intro i hi
    exact progWriteList_getD_lt _ _ _ _ hi
  have hh1 : (headerState lineNum inp.token s).wipeLineStart =
      s.wipeLineStart := rfl
  have hh2 : (headerState lineNum inp.token s).wipeProgByte =
      s.wipeProgByte + 3 := rfl
  have harm : ∀ r : Bool × CompileState,
      ArmEffect (headerState lineNum inp.token s) r →
      r.2.wipeLineStart = s.wipeLineStart ∧
      ∀ i, i < s.wipeProgByte → i < s.wipeLineStart →
        r.2.program.getD i 0 = s.program.getD i 0 := by
    rintro r ⟨h1, h2⟩
    refine ⟨h1.trans hh1, ?_⟩
    intro i hi hi2
    rw [h2 i (by rw [hh2]; omega) (by rw [hh1]; omega), hheader i hi]
  unfold wipeParseStatement
  by_cases h0 : inp.token = WIPE_UNDEF
  · rw [if_pos h0]
    exact ⟨rfl, fun i _ _ => rfl⟩
  · rw [if_neg h0]
    by_cases h1 : inp.token = WIPE_IF
    · rw [if_pos h1]
      exact harm _ (parseIfArm_effect inp _)
    · rw [if_neg h1]
      by_cases h2 : inp.token = WIPE_GOTO
      · rw [if_pos h2]
        exact harm _ (parseGotoLabelArm_effect inp _)
      · rw [if_neg h2]
        by_cases h3 : inp.token = WIPE_LABEL
        · rw [if_pos h3]
          exact harm _ (parseGotoLabelArm_effect inp _)
        · rw [if_neg h3]
          by_cases h4 : inp.token = WIPE_LET
          · rw [if_pos h4]
            exact harm _ (parseLetArm_effect inp _)
          · rw [if_neg h4]
            by_cases h5 : inp.token = WIPE_PRINT
            · rw [if_pos h5]
              exact harm _ (parsePrintArm_effect inp _)
            · rw [if_neg h5]
              by_cases h6 : inp.token = WIPE_VAR
              · rw [if_pos h6]
                exact harm _ (parseVarArm_effect inp _)
              · rw [if_neg h6]
                by_cases h7 : isFuncToken inp.token
                · rw [if_pos h7]
                  exact harm _ (parseFuncArm_effect inp.token inp _)
                · rw [if_neg h7]
                  exact harm _ ⟨rfl, fun i _ _ => rfl⟩

/-- C3: whenever the Statement Compiler rejects a raw input line (any
lexical, syntax, type or semantic failure, rendered by the failing
outcomes in StmtScan), the occupied length of the Program Buffer after the
attempt equals the length before it and every byte below that length is
unchanged: all partially written bytes of the rejected Tokenized Line lay
at or beyond the pre-attempt occupied length, and the final cursor reset
(line 5376) makes them unaddressable again. -/
theorem failed_compile_resets_buffer (inp : StmtScan) (lineNum : Nat)
    (saveToRam : Bool) (s0 : CompileState)
    (hfail : (wipeParseStatement inp lineNum
      { s0 with wipeLineStart := s0.wipeProgByte }).1 = false) :
    (processWipeStatementLine inp lineNum saveToRam s0).wipeProgByte =
      s0.wipeProgByte ∧
    ∀ i, i < s0.wipeProgByte →
      (processWipeStatementLine inp lineNum saveToRam s0).program.getD i 0 =
        s0.program.getD i 0 := by
  obtain ⟨heff1, heff2⟩ := wipeParseStatement_effect inp lineNum
    { s0 with wipeLineStart := s0.wipeProgByte }
  unfold processWipeStatementLine
  rw [hfail]
  simp only [Bool.false_eq_true, if_false]
  constructor
  · exact heff1
  · intro i hi
    exact heff2 i hi hi

/-- Witness for C3 at the malformed line of the spec scenario, let y = 1
plus nothing: the compiler fails at the expression and the twelve occupied
bytes (one stored print record) are intact with the length restored. -/
theorem failed_compile_resets_buffer_witness :
    (wipeParseStatement
      { token := WIPE_LET, ident := some [121], sepOk := true,
        typeName := none, expr := none, printIsStr := false,
        printStr := none, printPartial := [], funcParms := [],
        funcCloseOk := false, funcSrc := [] } 20
      { program := [10, 5, WIPE_GOTO, 76, 0, 0, 0, 0, 0, 0],
        wipeProgByte := 5, wipeLineStart := 5 }).1 = false ∧
    (processWipeStatementLine
      { token := WIPE_LET, ident := some [121], sepOk := true,
        typeName := none, expr := none, printIsStr := false,
        printStr := none, printPartial := [], funcParms := [],
        funcCloseOk := false, funcSrc := [] } 20 true
      { program := [10, 5, WIPE_GOTO, 76, 0, 0, 0, 0, 0, 0],
        wipeProgByte := 5, wipeLineStart := 0 }).wipeProgByte = 5 ∧
    ∀ i, i < 5 →
      (processWipeStatementLine
        { token := WIPE_LET, ident := some [121], sepOk := true,
          typeName := none, expr := none, printIsStr := false,
          printStr := none, printPartial := [], funcParms := [],
          funcCloseOk := false, funcSrc := [] } 20 true
        { program := [10, 5, WIPE_GOTO, 76, 0, 0, 0, 0, 0, 0],
          wipeProgByte := 5, wipeLineStart := 0 }).program.getD i 0 =
      ([10, 5, WIPE_GOTO, 76, 0, 0, 0, 0, 0, 0] : List Nat).getD i 0 :=
  ⟨by decide,
   (failed_compile_resets_buffer _ 20 true
     { program := [10, 5, WIPE_GOTO, 76, 0, 0, 0, 0, 0, 0],
       wipeProgByte := 5, wipeLineStart := 0 } (by decide)).1,
   (failed_compile_resets_buffer _ 20 true
     { program := [10, 5, WIPE_GOTO, 76, 0, 0, 0, 0, 0, 0],
       wipeProgByte := 5, wipeLineStart := 0 } (by decide)).2⟩

/-! ## Persistent program directory (EEPROM)

The directory occupies EEPROM bytes 17 through 4094 (EEPROM_PROG_DIR_START
through EEPROM_PROG_DIR_START + EEPROM_PROG_LEN - 1): packed entries
[size hi][size lo][13 name bytes][program bytes], terminated by one
two-byte zero sentinel.  The store is modelled as a total byte function;
reads the device cannot satisfy return the model default. -/

def Eeprom : Type := Nat → Nat

def eread (rom : Eeprom) (a : Nat) : Nat := rom a

def ewrite (rom : Eeprom) (a v : Nat) : Eeprom :=
  fun x => if x = a then v else rom x

def ewriteList (rom : Eeprom) (a : Nat) : List Nat → Eeprom
  | [] => rom
  | b :: bs => ewriteList (ewrite rom a b) (a + 1) bs

/-- Byte copy walking upward over the store (the compacting loop of
wipeDirFileErase at lines 2335-2336). -/
def ecopy (rom : Eeprom) : Nat → Nat → Nat → Eeprom
  | _, _, 0 => rom
  | dst, src, n + 1 =>
      ecopy (ewrite rom dst (eread rom src)) (dst + 1) (src + 1) n

/-- The two-byte big-endian size read the directory code performs
(for example sketch lines 2099-2100). -/
def sizeRead (rom : Eeprom) (a : Nat) : Nat :=
  eread rom a * 256 + eread rom (a + 1)

/-- One saved program as laid out in the store: the 13 raw name bytes the
save copied and the program bytes. -/
structure DirEnt where
  name13 : List Nat
  prog : List Nat

/-- Byte image of one directory entry.  The size bytes the save writes are
the uint16 program length shifted and truncated; for every reachable
length (at most 4064) this is length / 256 and length % 256. -/
def entryBytes (e : DirEnt) : List Nat :=
  (e.prog.length / 256) :: (e.prog.length % 256) :: (e.name13 ++ e.prog)

/-- Byte image of the whole directory: packed entries then the zero
sentinel. -/
def dirBytes (es : List DirEnt) : List Nat :=
  ((es.map entryBytes).join) ++ [0, 0]

/-- Bytes consumed by the entries (payload plus the 15-byte header
each). -/
def occ (es : List DirEnt) : Nat :=
  (es.map (fun e => e.prog.length + DIR_PROG_OFFS)).sum

/-- A byte list is laid out in the store starting at an address. -/
def LayoutAt (rom : Eeprom) (a : Nat) (bs : List Nat) : Prop :=
  ∀ i, i < bs.length → eread rom (a + i) = bs.getD i 0

/-- Entry sanity: the stored name block is the 13 bytes the save copied
and no saved program is empty (an empty one would write a zero size field,
indistinguishable from the sentinel). -/
def entsOk (es : List DirEnt) : Prop :=
  ∀ e ∈ es, e.name13.length = 13 ∧ 1 ≤ e.prog.length

/-- Well-formed directory as the code leaves it. -/
def DirOk (rom : Eeprom) (es : List DirEnt) : Prop :=
  entsOk es ∧ occ es ≤ EEPROM_PROG_LEN ∧
  LayoutAt rom EEPROM_PROG_DIR_START (dirBytes es)

/-- m_wipeSaveAddr and m_wipeDirSpace together with the store. -/
structure DirState where
  rom : Eeprom
  saveAddr : Nat
  dirSpace : Nat

/-- The full state invariant the directory code maintains: well-formed
layout, the save address at the sentinel, and the free-space counter
complementing the occupied bytes. -/
def DirInv (st : DirState) (es : List DirEnt) : Prop :=
  DirOk st.rom es ∧ st.saveAddr = EEPROM_PROG_DIR_START + occ es ∧
  st.dirSpace = EEPROM_PROG_LEN - occ es

/-- Walk loop of wipeDirSpaceCheck (sketch lines 2099-2114), returning
(m_wipeSaveAddr, m_wipeDirSpace).  Fueled: each step advances by at least
DIR_PROG_OFFS bytes and a well-formed region holds at most 254 entries, so
fuel 300 always suffices; exhaustion renders a walk that never finds the
sentinel. -/
def spaceLoop (rom : Eeprom) : Nat → Nat → Nat → Nat × Nat
  | 0, saveAddr, dirSpace => (saveAddr, dirSpace)
  | fuel + 1, saveAddr, dirSpace =>
      if sizeRead rom saveAddr ≠ 0 ∧
          saveAddr < EEPROM_PROG_DIR_START + EEPROM_PROG_LEN then
        spaceLoop rom fuel (saveAddr + sizeRead rom saveAddr + DIR_PROG_OFFS)
          (dirSpace - (sizeRead rom saveAddr + DIR_PROG_OFFS))
      else (saveAddr, dirSpace)

/-- wipeDirSpaceCheck (sketch lines 2093-2118). -/
def wipeDirSpaceCheck (rom : Eeprom) : Nat × Nat :=
  spaceLoop rom 300 EEPROM_PROG_DIR_START EEPROM_PROG_LEN

/-- The state after boot: the store with the counters the initial scan
computes. -/
def initDirState (rom : Eeprom) : DirState :=
  { rom := rom, saveAddr := (wipeDirSpaceCheck rom).1,
    dirSpace := (wipeDirSpaceCheck rom).2 }

/-- The per-program sizes the directory walk sees (the traversal shared by
wipeDirList, wipeDirSpaceCheck and wipeDirFileFind): entry sizes read in
order until the zero sentinel. -/
def visibleSizes (rom : Eeprom) : Nat → Nat → List Nat
  | 0, _ => []
  | fuel + 1, addr =>
      if sizeRead rom addr ≠ 0 ∧
          addr < EEPROM_PROG_DIR_START + EEPROM_PROG_LEN then
        sizeRead rom addr ::
          visibleSizes rom fuel (addr + sizeRead rom addr + DIR_PROG_OFFS)
      else []

def visiblePrograms (rom : Eeprom) : List Nat :=
  visibleSizes rom 300 EEPROM_PROG_DIR_START

/-- Name comparison of wipeDirFileFind (sketch lines 2282-2294): compare
up to 13 positions; a byte mismatch fails, a matching terminating nul
succeeds.  Reading the query name past its end gives 0, rendering the nul
terminator of the C string. -/
def nameCmpLoop (rom : Eeprom) (name : List Nat) (entryAddr : Nat) :
    Nat → Nat → Bool
  | _, 0 => false
  | i, k + 1 =>
      if name.getD i 0 ≠ eread rom (entryAddr + DIR_NAME_OFFS + i) then false
      else if name.getD i 0 = 0 then true
      else nameCmpLoop rom name entryAddr (i + 1) k

def dirNameMatch (rom : Eeprom) (name : List Nat) (entryAddr : Nat) : Bool :=
  nameCmpLoop rom name entryAddr 0 13

/-- wipeDirFileFind (sketch lines 2266-2302), fueled like the space walk;
(0, 0) renders not found. -/
def findLoop (rom : Eeprom) (name : List Nat) : Nat → Nat → Nat × Nat
  | 0, _ => (0, 0)
  | fuel + 1, addr =>
      if sizeRead rom addr ≠ 0 ∧
          addr < EEPROM_PROG_DIR_START + EEPROM_PROG_LEN then
        if dirNameMatch rom name addr then (addr, sizeRead rom addr)
        else findLoop rom name fuel (addr + sizeRead rom addr + DIR_PROG_OFFS)
      else (0, 0)

def wipeDirFileFind (rom : Eeprom) (name : List Nat) : Nat × Nat :=
  findLoop rom name 300 EEPROM_PROG_DIR_START

/-- wipeDirFileSave (sketch lines 2215-2249): write the two size bytes,
the 13 raw name bytes and the program bytes at m_wipeSaveAddr, advance the
save address, decrease the free-space counter and write the new
sentinel. -/
def wipeDirFileSave (st : DirState) (name13 progB : List Nat) : DirState :=
  { rom := ewrite (ewrite
      (ewriteList st.rom st.saveAddr
        ((progB.length / 256) :: (progB.length % 256) :: (name13 ++ progB)))
      (st.saveAddr + progB.length + DIR_PROG_OFFS) 0)
      (st.saveAddr + progB.length + DIR_PROG_OFFS + 1) 0,
    saveAddr := st.saveAddr + progB.length + DIR_PROG_OFFS,
    dirSpace := st.dirSpace - (progB.length + DIR_PROG_OFFS) }

/-- wipeDirFileErase (sketch lines 2315-2348): locate the entry, shift
(EEPROM_PROG_LEN - m_wipeDirSpace) - (size + DIR_PROG_OFFS) bytes down
over it, update the counters and write the new sentinel. -/
def wipeDirFileErase (st : DirState) (name : List Nat) : DirState :=
  if (wipeDirFileFind st.rom name).1 = 0 then st
  else
    { rom := ewrite (ewrite (ecopy st.rom (wipeDirFileFind st.rom name).1
        ((wipeDirFileFind st.rom name).1 + (wipeDirFileFind st.rom name).2 +
          DIR_PROG_OFFS)
        ((EEPROM_PROG_LEN - st.dirSpace) -
          ((wipeDirFileFind st.rom name).2 + DIR_PROG_OFFS)))
        (st.saveAddr - ((wipeDirFileFind st.rom name).2 + DIR_PROG_OFFS)) 0)
        (st.saveAddr - ((wipeDirFileFind st.rom name).2 + DIR_PROG_OFFS) + 1)
        0,
      saveAddr := st.saveAddr -
        ((wipeDirFileFind st.rom name).2 + DIR_PROG_OFFS),
      dirSpace := st.dirSpace + (wipeDirFileFind st.rom name).2 +
        DIR_PROG_OFFS }

/-- wipeDirFileLoad (sketch lines 2363-2388): locate the entry, copy its
bytes into m_program and set the occupied length to the file size; none
renders the not-found false return. -/
def wipeDirFileLoad (rom : Eeprom) (name : List Nat) : Option (List Nat) :=
  if (wipeDirFileFind rom name).1 = 0 then none
  else some ((List.range (wipeDirFileFind rom name).2).map
    (fun i => eread rom ((wipeDirFileFind rom name).1 + DIR_PROG_OFFS + i)))

/-- The 13 name-block bytes the save copies out of the token buffer: the
scanned name, its terminator, and whatever bytes happen to follow in
memory (the C memcpy reads past the terminator). -/
def namePad13 (name junk : List Nat) : List Nat :=
  ((name ++ [0]) ++ (junk ++ List.replicate 13 0)).take 13

/-- WIPE_CMD_SAVE arm of processWipeCommand (sketch lines 5301-5319):
refuse when the program plus directory header exceeds the free-space
counter, or when a program of that name is already found; otherwise
save. -/
def saveCmd (st : DirState) (name junk progB : List Nat) : DirState :=
  if progB.length + DIR_PROG_OFFS > st.dirSpace then st
  else if (wipeDirFileFind st.rom name).1 ≠ 0 then st
  else wipeDirFileSave st (namePad13 name junk) progB

/-- One console directory operation after boot: the save command (with the
scanned name, the junk bytes after its terminator and the program bytes)
or the erase command. -/
inductive DirOp
  | saveOp (name junk progB : List Nat)
  | eraseOp (name : List Nat)

def applyDirOp (st : DirState) : DirOp → DirState
  | .saveOp name junk progB => saveCmd st name junk progB
  | .eraseOp name => wipeDirFileErase st name

def applyDirOps (st : DirState) : List DirOp → DirState
  | [] => st
  | op :: ops => applyDirOps (applyDirOp st op) ops

/-- The restriction the amended accounting claim needs: every save stores
a non-empty program. -/
def saveNonempty : DirOp → Prop
  | .saveOp _ _ progB => 1 ≤ progB.length
  | .eraseOp _ => True

/-- Pure counterpart of the name comparison against an entry already known
to lie in the store. -/
def pureNameCmp (name stored : List Nat) : Nat → Nat → Bool
  | _, 0 => false
  | i, k + 1 =>
      if name.getD i 0 ≠ stored.getD i 0 then false
      else if name.getD i 0 = 0 then true
      else pureNameCmp name stored (i + 1) k

def entNameMatch (name : List Nat) (e : DirEnt) : Bool :=
  pureNameCmp name e.name13 0 13

/-- Pure counterpart of the find walk over the entry list. -/
def firstMatchFrom (name : List Nat) : List DirEnt → Nat → Nat × Nat
  | [], _ => (0, 0)
  | e :: rest, addr =>
      if entNameMatch name e then (addr, e.prog.length)
      else firstMatchFrom name rest (addr + e.prog.length + DIR_PROG_OFFS)

/-! ### Store primitive lemmas -/

theorem eread_ewrite_eq (rom : Eeprom) (a v : Nat) :
    eread (ewrite rom a v) a = v := by
  simp [eread, ewrite]

theorem eread_ewrite_ne (rom : Eeprom) (a v x : Nat) (h : x ≠ a) :
    eread (ewrite rom a v) x = eread rom x := by
  simp [eread, ewrite, h]

theorem eread_ewriteList_out (bs : List Nat) : ∀ (rom : Eeprom) (a x : Nat),
    (x < a ∨ a + bs.length ≤ x) → eread (ewriteList rom a bs) x = eread rom x := by
  induction bs with
  | nil => intro rom a x _; rfl
  | cons b bs ih =>
      intro rom a x h
      show eread (ewriteList (ewrite rom a b) (a + 1) bs) x = eread rom x
      rw [ih (ewrite rom a b) (a + 1) x (by simp at h; omega)]
      exact eread_ewrite_ne rom a b x (by simp at h; omega)

theorem eread_ewriteList_in (bs : List Nat) : ∀ (rom : Eeprom) (a i : Nat),
    i < bs.length → eread (ewriteList rom a bs) (a + i) = bs.getD i 0 := by
  induction bs with
  | nil => intro rom a i h; simp at h
  | cons b bs ih =>
      intro rom a i h
      match i with
      | 0 =>
          show eread (ewriteList (ewrite rom a b) (a + 1) bs) (a + 0) = b
          rw [eread_ewriteList_out bs (ewrite rom a b) (a + 1) (a + 0)
            (Or.inl (by omega))]
          show eread (ewrite rom a b) a = b
          exact eread_ewrite_eq rom a b
      | i + 1 =>
          show eread (ewriteList (ewrite rom a b) (a + 1) bs) (a + (i + 1)) =
            bs.getD i 0
          have haddr : a + (i + 1) = (a + 1) + i := by omega
          rw [haddr]
          exact ih (ewrite rom a b) (a + 1) i (by simp at h; omega)

theorem eread_ecopy (n : Nat) : ∀ (rom : Eeprom) (dst src : Nat), dst ≤ src →
    (∀ k, k < n → eread (ecopy rom dst src n) (dst + k) = eread rom (src + k)) ∧
    (∀ x, (x < dst ∨ dst + n ≤ x) → eread (ecopy rom dst src n) x = eread rom x) := by
  induction n with
  | zero =>
      intro rom dst src _
      exact ⟨fun k hk => absurd hk (by omega), fun x _ => rfl⟩
  | succ n ih =>
      intro rom dst src hle
      have ih2 := ih (ewrite rom dst (eread rom src)) (dst + 1) (src + 1)
        (by omega)
      constructor
      · intro k hk
        show eread (ecopy (ewrite rom dst (eread rom src)) (dst + 1) (src + 1) n)
          (dst + k) = eread rom (src + k)
        match k with
        | 0 =>
            show eread (ecopy (ewrite rom dst (eread rom src)) (dst + 1)
              (src + 1) n) dst = eread rom src
            rw [ih2.2 dst (Or.inl (by omega))]
            exact eread_ewrite_eq rom dst (eread rom src)
        | k + 1 =>
            have haddr : dst + (k + 1) = (dst + 1) + k := by omega
            rw [haddr, ih2.1 k (by omega)]
            have haddr2 : (src + 1) + k = src + (k + 1) := by omega
            rw [haddr2]
            exact eread_ewrite_ne rom dst (eread rom src) (src + (k + 1))
              (by omega)
      · intro x hx
        show eread (ecopy (ewrite rom dst (eread rom src)) (dst + 1) (src + 1) n)
          x = eread rom x
        rw [ih2.2 x (by omega)]
        exact eread_ewrite_ne rom dst (eread rom src) x (by omega)

/-! ### Layout lemmas -/

theorem LayoutAt_nil (rom : Eeprom) (a : Nat) : LayoutAt rom a [] := by
  intro i h; simp at h

theorem LayoutAt_cons_iff (rom : Eeprom) (a b : Nat) (bs : List Nat) :
    LayoutAt rom a (b :: bs) ↔
      eread rom a = b ∧ LayoutAt rom (a + 1) bs := by
  constructor
  · intro h
    refine ⟨?_, ?_⟩
    · have := h 0 (by simp)
      simpa using this
    · intro i hi
      have := h (i + 1) (by simpa using Nat.succ_lt_succ hi)
      have haddr : a + (i + 1) = (a + 1) + i := by omega
      rw [haddr] at this
      simpa using this
  · intro ⟨h1, h2⟩ i hi
    match i with
    | 0 => simpa using h1
    | i + 1 =>
        have haddr : a + (i + 1) = (a + 1) + i := by omega
        rw [haddr]
        have := h2 i (by simpa using hi)
        simpa using this

theorem LayoutAt_append_iff (xs : List Nat) :
    ∀ (ys : List Nat) (rom : Eeprom) (a : Nat),
    LayoutAt rom a (xs ++ ys) ↔
      LayoutAt rom a xs ∧ LayoutAt rom (a + xs.length) ys := by
  induction xs with
  | nil =>
      intro ys rom a
      simp [LayoutAt_nil]
  | cons x xs ih =>
      intro ys rom a
      rw [List.cons_append, LayoutAt_cons_iff, LayoutAt_cons_iff, ih,
        and_assoc]
      have haddr : (a + 1) + xs.length = a + (x :: xs).length := by
        simp; omega
      rw [haddr]

/-- Two stores agreeing on a range carry the same layouts there. -/
theorem LayoutAt_congr (rom rom2 : Eeprom) (a : Nat) (bs : List Nat)
    (hagree : ∀ i, i < bs.length → eread rom2 (a + i) = eread rom (a + i))
    (h : LayoutAt rom a bs) : LayoutAt rom2 a bs := by
  intro i hi
  rw [hagree i hi]
  exact h i hi

/-! ### Directory byte-image lemmas -/

theorem entryBytes_length (e : DirEnt) (h13 : e.name13.length = 13) :
    (entryBytes e).length = e.prog.length + DIR_PROG_OFFS := by
  simp [entryBytes, h13, DIR_PROG_OFFS]
  omega

theorem occ_nil : occ [] = 0 := rfl

theorem occ_cons (e : DirEnt) (es : List DirEnt) :
    occ (e :: es) = (e.prog.length + DIR_PROG_OFFS) + occ es := by
  simp [occ]

theorem occ_append (es1 es2 : List DirEnt) :
    occ (es1 ++ es2) = occ es1 + occ es2 := by
  simp [occ]

theorem dirBytes_cons (e : DirEnt) (es : List DirEnt) :
    dirBytes (e :: es) = entryBytes e ++ dirBytes es := by
  simp [dirBytes, List.append_assoc]

theorem dirBytes_append (es1 es2 : List DirEnt) :
    dirBytes (es1 ++ es2) = (es1.map entryBytes).join ++ dirBytes es2 := by
  simp [dirBytes, List.append_assoc]

theorem join_map_length (es : List DirEnt) (h : entsOk es) :
    ((es.map entryBytes).join).length = occ es := by
  induction es with
  | nil => rfl
  | cons e es ih =>
      have he := h e (List.mem_cons_self e es)
      have hrest : entsOk es := fun e' he' => h e' (List.mem_cons_of_mem e he')
      show (entryBytes e ++ (es.map entryBytes).join).length = occ (e :: es)
      rw [List.length_append, entryBytes_length e he.1, ih hrest, occ_cons]

theorem dirBytes_length (es : List DirEnt) (h : entsOk es) :
    (dirBytes es).length = occ es + 2 := by
  rw [dirBytes, List.length_append, join_map_length es h]
  rfl

theorem sixteen_mul_length_le_occ (es : List DirEnt) (h : entsOk es) :
    16 * es.length ≤ occ es := by
  induction es with
  | nil => simp [occ]
  | cons e es ih =>
      have he := h e (List.mem_cons_self e es)
      have hrest : entsOk es := fun e' he' => h e' (List.mem_cons_of_mem e he')
      have h1 := ih hrest
      have h2 := he.2
      have hD : DIR_PROG_OFFS = 15 := rfl
      rw [occ_cons, List.length_cons]
      omega

/-- The reads a well-laid-out entry provides: its size field, its name
block, its program bytes. -/
theorem entry_reads (rom : Eeprom) (a : Nat) (e : DirEnt)
    (h13 : e.name13.length = 13)
    (h : LayoutAt rom a (entryBytes e)) :
    sizeRead rom a = e.prog.length ∧
    (∀ j, j < 13 → eread rom (a + DIR_NAME_OFFS + j) = e.name13.getD j 0) ∧
    (∀ j, j < e.prog.length →
      eread rom (a + DIR_PROG_OFFS + j) = e.prog.getD j 0) := by
  rw [entryBytes, LayoutAt_cons_iff] at h
  obtain ⟨h0, h⟩ := h
  rw [LayoutAt_cons_iff] at h
  obtain ⟨h1, h⟩ := h
  rw [LayoutAt_append_iff] at h
  obtain ⟨hname, hprog⟩ := h
  refine ⟨?_, ?_, ?_⟩
  · rw [sizeRead, h0, h1]
    omega
  · intro j hj
    have hjn : j < e.name13.length := by omega
    have := hname j hjn
    have haddr : a + DIR_NAME_OFFS + j = a + 1 + 1 + j := by
      simp [DIR_NAME_OFFS]
    rw [haddr]
    exact this
  · intro j hj
    have := hprog j hj
    have haddr : a + DIR_PROG_OFFS + j = a + 1 + 1 + e.name13.length + j := by
      simp [DIR_PROG_OFFS, h13]
    rw [haddr]
    exact this

/-! ### Directory walk lemmas -/

theorem spaceLoop_layout (es : List DirEnt) :
    ∀ (rom : Eeprom) (fuel addr space : Nat),
    entsOk es → es.length < fuel →
    LayoutAt rom addr (dirBytes es) →
    addr + occ es ≤ EEPROM_PROG_DIR_START + EEPROM_PROG_LEN →
    occ es ≤ space →
    spaceLoop rom fuel addr space = (addr + occ es, space - occ es) := by
  induction es with
  | nil =>
      intro rom fuel addr space _ hfuel hlay _ _
      cases fuel with
      | zero => omega
      | succ fuel =>
          have h0 : eread rom (addr + 0) = 0 := hlay 0 (by simp [dirBytes])
          have h1 : eread rom (addr + 1) = 0 := hlay 1 (by simp [dirBytes])
          have hstep : spaceLoop rom (fuel + 1) addr space =
              if sizeRead rom addr ≠ 0 ∧
                  addr < EEPROM_PROG_DIR_START + EEPROM_PROG_LEN then
                spaceLoop rom fuel
                  (addr + sizeRead rom addr + DIR_PROG_OFFS)
                  (space - (sizeRead rom addr + DIR_PROG_OFFS))
              else (addr, space) := rfl
          have hsz : sizeRead rom addr = 0 := by
            rw [sizeRead]
            rw [Nat.add_zero] at h0
            rw [h0, h1]
          rw [hstep, if_neg (by simp [hsz])]
          simp [occ]
  | cons e es ih =>
      intro rom fuel addr space hok hfuel hlay hbound hspace
      have he := hok e (List.mem_cons_self e es)
      have hrest : entsOk es := fun e' he' => hok e' (List.mem_cons_of_mem e he')
      rw [dirBytes_cons, LayoutAt_append_iff] at hlay
      obtain ⟨hent, hrestlay⟩ := hlay
      have hsz := (entry_reads rom addr e he.1 hent).1
      rw [entryBytes_length e he.1] at hrestlay
      have hocc := occ_cons e es
      cases fuel with
      | zero => omega
      | succ fuel =>
          have hstep : spaceLoop rom (fuel + 1) addr space =
              if sizeRead rom addr ≠ 0 ∧
                  addr < EEPROM_PROG_DIR_START + EEPROM_PROG_LEN then
                spaceLoop rom fuel
                  (addr + sizeRead rom addr + DIR_PROG_OFFS)
                  (space - (sizeRead rom addr + DIR_PROG_OFFS))
              else (addr, space) := rfl
          rw [hstep, if_pos ⟨by rw [hsz]; omega, by omega⟩, hsz]
          have hlay2 : LayoutAt rom (addr + e.prog.length + DIR_PROG_OFFS)
              (dirBytes es) := by
            have haddr : addr + e.prog.length + DIR_PROG_OFFS =
                addr + (e.prog.length + DIR_PROG_OFFS) := by omega
            rw [haddr]
            exact hrestlay
          rw [ih rom fuel (addr + e.prog.length + DIR_PROG_OFFS)
            (space - (e.prog.length + DIR_PROG_OFFS)) hrest
            (by simp at hfuel; omega) hlay2 (by omega) (by omega)]
          have h1 : addr + e.prog.length + DIR_PROG_OFFS + occ es =
              addr + occ (e :: es) := by omega
          have h2 : space - (e.prog.length + DIR_PROG_OFFS) - occ es =
              space - occ (e :: es) := by omega
          rw [h1, h2]

theorem visibleSizes_layout (es : List DirEnt) :
    ∀ (rom : Eeprom) (fuel addr : Nat),
    entsOk es → es.length < fuel →
    LayoutAt rom addr (dirBytes es) →
    addr + occ es ≤ EEPROM_PROG_DIR_START + EEPROM_PROG_LEN →
    visibleSizes rom fuel addr = es.map (fun e => e.prog.length) := by
  induction es with
  | nil =>
      intro rom fuel addr _ hfuel hlay _
      cases fuel with
      | zero => omega
      | succ fuel =>
          have h0 : eread rom (addr + 0) = 0 := hlay 0 (by simp [dirBytes])
          have h1 : eread rom (addr + 1) = 0 := hlay 1 (by simp [dirBytes])
          have hsz : sizeRead rom addr = 0 := by
            rw [sizeRead]
            rw [Nat.add_zero] at h0
            rw [h0, h1]
          have hstep : visibleSizes rom (fuel + 1) addr =
              if sizeRead rom addr ≠ 0 ∧
                  addr < EEPROM_PROG_DIR_START + EEPROM_PROG_LEN then
                sizeRead rom addr ::
                  visibleSizes rom fuel
                    (addr + sizeRead rom addr + DIR_PROG_OFFS)
              else [] := rfl
          rw [hstep, if_neg (by simp [hsz])]
          rfl
  | cons e es ih =>
      intro rom fuel addr hok hfuel hlay hbound
      have he := hok e (List.mem_cons_self e es)
      have hrest : entsOk es := fun e' he' => hok e' (List.mem_cons_of_mem e he')
      rw [dirBytes_cons, LayoutAt_append_iff] at hlay
      obtain ⟨hent, hrestlay⟩ := hlay
      have hsz := (entry_reads rom addr e he.1 hent).1
      rw [entryBytes_length e he.1] at hrestlay
      have hocc := occ_cons e es
      cases fuel with
      | zero => omega
      | succ fuel =>
          have hstep : visibleSizes rom (fuel + 1) addr =
              if sizeRead rom addr ≠ 0 ∧
                  addr < EEPROM_PROG_DIR_START + EEPROM_PROG_LEN then
                sizeRead rom addr ::
                  visibleSizes rom fuel
                    (addr + sizeRead rom addr + DIR_PROG_OFFS)
              else [] := rfl
          rw [hstep, if_pos ⟨by rw [hsz]; omega, by omega⟩, hsz]
          have hlay2 : LayoutAt rom (addr + e.prog.length + DIR_PROG_OFFS)
              (dirBytes es) := by
            have haddr : addr + e.prog.length + DIR_PROG_OFFS =
                addr + (e.prog.length + DIR_PROG_OFFS) := by omega
            rw [haddr]
            exact hrestlay
          rw [ih rom fuel (addr + e.prog.length + DIR_PROG_OFFS) hrest
            (by simp at hfuel; omega) hlay2 (by omega)]
          rfl

theorem nameCmpLoop_eq_pure (rom : Eeprom) (name stored : List Nat)
    (entryAddr : Nat)
    (hread : ∀ j, j < 13 →
      eread rom (entryAddr + DIR_NAME_OFFS + j) = stored.getD j 0) :
    ∀ (k i : Nat), i + k ≤ 13 →
    nameCmpLoop rom name entryAddr i k = pureNameCmp name stored i k := by
  intro k
  induction k with
  | zero => intro i _; rfl
  | succ k ih =>
      intro i hik
      have hl : nameCmpLoop rom name entryAddr i (k + 1) =
          if name.getD i 0 ≠ eread rom (entryAddr + DIR_NAME_OFFS + i) then
            false
          else if name.getD i 0 = 0 then true
          else nameCmpLoop rom name entryAddr (i + 1) k := rfl
      have hr : pureNameCmp name stored i (k + 1) =
          if name.getD i 0 ≠ stored.getD i 0 then false
          else if name.getD i 0 = 0 then true
          else pureNameCmp name stored (i + 1) k := rfl
      rw [hl, hr, hread i (by omega), ih (i + 1) (by omega)]

theorem dirNameMatch_layout (rom : Eeprom) (name : List Nat)
    (entryAddr : Nat) (e : DirEnt) (h13 : e.name13.length = 13)
    (hent : LayoutAt rom entryAddr (entryBytes e)) :
    dirNameMatch rom name entryAddr = entNameMatch name e := by
  have hread := (entry_reads rom entryAddr e h13 hent).2.1
  exact nameCmpLoop_eq_pure rom name e.name13 entryAddr hread 13 0 (by omega)

theorem findLoop_layout (es : List DirEnt) :
    ∀ (rom : Eeprom) (fuel addr : Nat) (name : List Nat),
    entsOk es → es.length < fuel →
    LayoutAt rom addr (dirBytes es) →
    addr + occ es ≤ EEPROM_PROG_DIR_START + EEPROM_PROG_LEN →
    findLoop rom name fuel addr = firstMatchFrom name es addr := by
  induction es with
  | nil =>
      intro rom fuel addr name _ hfuel hlay _
      cases fuel with
      | zero => omega
      | succ fuel =>
          have h0 : eread rom (addr + 0) = 0 := hlay 0 (by simp [dirBytes])
          have h1 : eread rom (addr + 1) = 0 := hlay 1 (by simp [dirBytes])
          have hsz : sizeRead rom addr = 0 := by
            rw [sizeRead]
            rw [Nat.add_zero] at h0
            rw [h0, h1]
          have hstep : findLoop rom name (fuel + 1) addr =
              if sizeRead rom addr ≠ 0 ∧
                  addr < EEPROM_PROG_DIR_START + EEPROM_PROG_LEN then
                if dirNameMatch rom name addr then (addr, sizeRead rom addr)
                else findLoop rom name fuel
                  (addr + sizeRead rom addr + DIR_PROG_OFFS)
              else (0, 0) := rfl
          rw [hstep, if_neg (by simp [hsz])]
          rfl
  | cons e es ih =>
      intro rom fuel addr name hok hfuel hlay hbound
      have he := hok e (List.mem_cons_self e es)
      have hrest : entsOk es := fun e' he' => hok e' (List.mem_cons_of_mem e he')
      rw [dirBytes_cons, LayoutAt_append_iff] at hlay
      obtain ⟨hent, hrestlay⟩ := hlay
      have hsz := (entry_reads rom addr e he.1 hent).1
      have hmatch := dirNameMatch_layout rom name addr e he.1 hent
      rw [entryBytes_length e he.1] at hrestlay
      have hocc := occ_cons e es
      cases fuel with
      | zero => omega
      | succ fuel =>
          have hstep : findLoop rom name (fuel + 1) addr =
              if sizeRead rom addr ≠ 0 ∧
                  addr < EEPROM_PROG_DIR_START + EEPROM_PROG_LEN then
                if dirNameMatch rom name addr then (addr, sizeRead rom addr)
                else findLoop rom name fuel
                  (addr + sizeRead rom addr + DIR_PROG_OFFS)
              else (0, 0) := rfl
          have hpure : firstMatchFrom name (e :: es) addr =
              if entNameMatch name e then (addr, e.prog.length)
              else firstMatchFrom name es
                (addr + e.prog.length + DIR_PROG_OFFS) := rfl
          rw [hstep, if_pos ⟨by rw [hsz]; omega, by omega⟩, hsz, hmatch, hpure]
          by_cases hm : entNameMatch name e
          · rw [if_pos hm, if_pos hm]
          · rw [if_neg hm, if_neg hm]
            have hlay2 : LayoutAt rom (addr + e.prog.length + DIR_PROG_OFFS)
                (dirBytes es) := by
              have haddr : addr + e.prog.length + DIR_PROG_OFFS =
                  addr + (e.prog.length + DIR_PROG_OFFS) := by omega
              rw [haddr]
              exact hrestlay
            exact ih rom fuel (addr + e.prog.length + DIR_PROG_OFFS) name hrest
              (by simp at hfuel; omega) hlay2 (by omega)

/-! ### Pure find-walk lemmas -/

theorem firstMatchFrom_no (name : List Nat) (es : List DirEnt) :
    ∀ addr, (∀ e ∈ es, entNameMatch name e = false) →
    firstMatchFrom name es addr = (0, 0) := by
  induction es with
  | nil => intro addr _; rfl
  | cons e es ih =>
      intro addr hno
      have hstep : firstMatchFrom name (e :: es) addr =
          if entNameMatch name e then (addr, e.prog.length)
          else firstMatchFrom name es
            (addr + e.prog.length + DIR_PROG_OFFS) := rfl
      rw [hstep, if_neg (by simp [hno e (List.mem_cons_self e es)])]
      exact ih _ (fun e' he' => hno e' (List.mem_cons_of_mem e he'))

theorem firstMatchFrom_zero (name : List Nat) (es : List DirEnt) :
    ∀ addr, 1 ≤ addr → (firstMatchFrom name es addr).1 = 0 →
    ∀ e ∈ es, entNameMatch name e = false := by
  induction es with
  | nil => intro addr _ _ e he; simp at he
  | cons e es ih =>
      intro addr haddr h0 e' he'
      have hstep : firstMatchFrom name (e :: es) addr =
          if entNameMatch name e then (addr, e.prog.length)
          else firstMatchFrom name es
            (addr + e.prog.length + DIR_PROG_OFFS) := rfl
      by_cases hm : entNameMatch name e
      · rw [hstep, if_pos hm] at h0
        simp at h0
        omega
      · rw [hstep, if_neg hm] at h0
        rcases List.mem_cons.mp he' with heq | hmem
        · rw [heq]
          exact Bool.eq_false_iff.mpr hm
        · exact ih (addr + e.prog.length + DIR_PROG_OFFS) (by omega) h0 e' hmem

theorem firstMatchFrom_append_no (name : List Nat) (es : List DirEnt) :
    ∀ (tail : List DirEnt) (addr : Nat),
    (∀ e ∈ es, entNameMatch name e = false) →
    firstMatchFrom name (es ++ tail) addr =
      firstMatchFrom name tail (addr + occ es) := by
  induction es with
  | nil => intro tail addr _; rw [occ_nil, Nat.add_zero]; rfl
  | cons e es ih =>
      intro tail addr hno
      have hstep : firstMatchFrom name ((e :: es) ++ tail) addr =
          if entNameMatch name e then (addr, e.prog.length)
          else firstMatchFrom name (es ++ tail)
            (addr + e.prog.length + DIR_PROG_OFFS) := rfl
      rw [hstep, if_neg (by simp [hno e (List.mem_cons_self e es)])]
      rw [ih tail (addr + e.prog.length + DIR_PROG_OFFS)
        (fun e' he' => hno e' (List.mem_cons_of_mem e he'))]
      have haddr : addr + e.prog.length + DIR_PROG_OFFS + occ es =
          addr + occ (e :: es) := by rw [occ_cons]; omega
      rw [haddr]

theorem firstMatchFrom_found (name : List Nat) (es : List DirEnt) :
    ∀ addr raddr rsz, firstMatchFrom name es addr = (raddr, rsz) →
    raddr ≠ 0 →
    ∃ pre e post, es = pre ++ e :: post ∧ entNameMatch name e = true ∧
      (∀ e' ∈ pre, entNameMatch name e' = false) ∧
      raddr = addr + occ pre ∧ rsz = e.prog.length := by
  induction es with
  | nil =>
      intro addr raddr rsz h hne
      have h2 : raddr = 0 ∧ rsz = 0 := by
        have h3 : (0, 0) = (raddr, rsz) := h
        simpa using h3.symm
      exact absurd h2.1 hne
  | cons e es ih =>
      intro addr raddr rsz h hne
      have hstep : firstMatchFrom name (e :: es) addr =
          if entNameMatch name e then (addr, e.prog.length)
          else firstMatchFrom name es
            (addr + e.prog.length + DIR_PROG_OFFS) := rfl
      by_cases hm : entNameMatch name e
      · rw [hstep, if_pos hm] at h
        have h1 : addr = raddr ∧ e.prog.length = rsz := by simpa using h
        refine ⟨[], e, es, rfl, hm, by simp, ?_, ?_⟩
        · rw [occ_nil]
          omega
        · omega
      · rw [hstep, if_neg hm] at h
        obtain ⟨pre, e', post, heq, hm', hpre, hra, hsz⟩ :=
          ih (addr + e.prog.length + DIR_PROG_OFFS) raddr rsz h hne
        refine ⟨e :: pre, e', post, by simp [heq], hm', ?_, ?_, hsz⟩
        · intro x hx
          rcases List.mem_cons.mp hx with hxe | hxm
          · rw [hxe]
            exact Bool.eq_false_iff.mpr hm
          · exact hpre x hxm
        · rw [occ_cons]
          omega

/-! ### Matching the freshly saved name

The 13-byte block the save copies starts with the scanned name and its nul
terminator; the find comparison stops successfully at that nul whenever
the name fits the 12-character limit the scanner enforces. -/

theorem pureNameCmp_true (name stored : List Nat) :
    ∀ (k i m : Nat), i ≤ m → m < i + k → name.getD m 0 = 0 →
    (∀ j, i ≤ j → j ≤ m → name.getD j 0 = stored.getD j 0) →
    pureNameCmp name stored i k = true := by
  intro k
  induction k with
  | zero => intro i m h1 h2 _ _; omega
  | succ k ih =>
      intro i m h1 h2 hm hagree
      have hstep : pureNameCmp name stored i (k + 1) =
          if name.getD i 0 ≠ stored.getD i 0 then false
          else if name.getD i 0 = 0 then true
          else pureNameCmp name stored (i + 1) k := rfl
      have hag : name.getD i 0 = stored.getD i 0 :=
        hagree i (by omega) (by omega)
      rw [hstep, if_neg (by rw [hag]; simp)]
      by_cases h0 : name.getD i 0 = 0
      · rw [if_pos h0]
      · rw [if_neg h0]
        have him : i ≠ m := fun hc => h0 (hc ▸ hm)
        exact ih (i + 1) m (by omega) (by omega) hm
          (fun j hj1 hj2 => hagree j (by omega) hj2)

theorem namePad13_length (name junk : List Nat) :
    (namePad13 name junk).length = 13 := by
  rw [namePad13, List.length_take]
  simp
  omega

theorem namePad13_getD (name junk : List Nat) (j : Nat)
    (hj : j ≤ name.length) (hlen : name.length ≤ 12) :
    (namePad13 name junk).getD j 0 = (name ++ [0]).getD j 0 := by
  rw [namePad13]
  have hj13 : j < 13 := by omega
  rw [List.getD_eq_getElem?_getD, List.getElem?_take, if_pos hj13,
    ← List.getD_eq_getElem?_getD, List.getD_append]
  simp
  omega

theorem entNameMatch_namePad13 (name junk progB : List Nat)
    (hlen : name.length ≤ 12) :
    entNameMatch name ⟨namePad13 name junk, progB⟩ = true := by
  rw [entNameMatch]
  apply pureNameCmp_true name (namePad13 name junk) 13 0 name.length
    (by omega) (by omega)
  · exact List.getD_eq_default _ _ (by omega)
  · intro j _ hj
    rw [namePad13_getD name junk j hj hlen]
    rcases Nat.lt_or_ge j name.length with hlt | hge
    · rw [List.getD_append]
      exact hlt
    · have hje : j = name.length := by omega
      rw [hje, List.getD_eq_default _ _ (by omega), List.getD_append_right]
      · simp
      · omega

/-! ### Directory invariant: establishment and preservation -/

theorem initDirState_inv (rom : Eeprom) (es : List DirEnt)
    (h : DirOk rom es) : DirInv (initDirState rom) es := by
  obtain ⟨hok, hocc, hlay⟩ := h
  have hL : EEPROM_PROG_LEN = 4078 := rfl
  have hlen : es.length < 300 := by
    have := sixteen_mul_length_le_occ es hok
    omega
  have hscan := spaceLoop_layout es rom 300 EEPROM_PROG_DIR_START
    EEPROM_PROG_LEN hok hlen hlay (by omega) (by omega)
  refine ⟨⟨hok, hocc, hlay⟩, ?_, ?_⟩
  · show (wipeDirSpaceCheck rom).1 = _
    rw [wipeDirSpaceCheck, hscan]
  · show (wipeDirSpaceCheck rom).2 = _
    rw [wipeDirSpaceCheck, hscan]

theorem wipeDirFileSave_inv (st : DirState) (es : List DirEnt)
    (name13 progB : List Nat) (hinv : DirInv st es)
    (h13 : name13.length = 13) (hp : 1 ≤ progB.length)
    (hsp : progB.length + DIR_PROG_OFFS ≤ st.dirSpace) :
    DirInv (wipeDirFileSave st name13 progB)
      (es ++ [{ name13 := name13, prog := progB }]) := by
  obtain ⟨⟨hok, hocc, hlay⟩, hsa, hds⟩ := hinv
  have hD : DIR_PROG_OFFS = 15 := rfl
  have hokE : entsOk (es ++ [{ name13 := name13, prog := progB }]) := by
    intro e he
    rcases List.mem_append.mp he with h1 | h2
    · exact hok e h1
    · have he2 : e = { name13 := name13, prog := progB } := by simpa using h2
      rw [he2]
      exact ⟨h13, hp⟩
  have hoccE : occ (es ++ [{ name13 := name13, prog := progB }]) =
      occ es + (progB.length + DIR_PROG_OFFS) := by
    rw [occ_append]
    simp [occ]
  have hbytesE : entryBytes { name13 := name13, prog := progB } =
      (progB.length / 256) :: (progB.length % 256) ::
        (name13 ++ progB) := rfl
  have hlenE : (entryBytes { name13 := name13, prog := progB }).length =
      progB.length + DIR_PROG_OFFS :=
    entryBytes_length { name13 := name13, prog := progB } h13
  have hrom : (wipeDirFileSave st name13 progB).rom = ewrite (ewrite
      (ewriteList st.rom st.saveAddr ((progB.length / 256) ::
        (progB.length % 256) :: (name13 ++ progB)))
      (st.saveAddr + progB.length + DIR_PROG_OFFS) 0)
      (st.saveAddr + progB.length + DIR_PROG_OFFS + 1) 0 := rfl
  have hbytesLen : ((progB.length / 256) :: (progB.length % 256) ::
      (name13 ++ progB)).length = progB.length + DIR_PROG_OFFS := by
    simp [h13, hD]
    omega
  have hout : ∀ x, x < st.saveAddr →
      eread (wipeDirFileSave st name13 progB).rom x = eread st.rom x := by
    intro x hx
    rw [hrom, eread_ewrite_ne _ _ _ _ (by omega),
      eread_ewrite_ne _ _ _ _ (by omega),
      eread_ewriteList_out _ _ _ _ (Or.inl hx)]
  have hin : ∀ i, i < progB.length + DIR_PROG_OFFS →
      eread (wipeDirFileSave st name13 progB).rom (st.saveAddr + i) =
        (entryBytes { name13 := name13, prog := progB }).getD i 0 := by
    intro i hi
    rw [hrom, eread_ewrite_ne _ _ _ _ (by omega),
      eread_ewrite_ne _ _ _ _ (by omega), hbytesE]
    rw [eread_ewriteList_in _ _ _ _ (by rw [hbytesLen]; exact hi)]
  have hsent0 : eread (wipeDirFileSave st name13 progB).rom
      (st.saveAddr + progB.length + DIR_PROG_OFFS) = 0 := by
    rw [hrom, eread_ewrite_ne _ _ _ _ (by omega), eread_ewrite_eq]
  have hsent1 : eread (wipeDirFileSave st name13 progB).rom
      (st.saveAddr + progB.length + DIR_PROG_OFFS + 1) = 0 := by
    rw [hrom, eread_ewrite_eq]
  refine ⟨⟨hokE, ?_, ?_⟩, ?_, ?_⟩
  · rw [hoccE]
    omega
  · rw [dirBytes_append, LayoutAt_append_iff]
    constructor
    · have hpre : LayoutAt st.rom EEPROM_PROG_DIR_START
          ((es.map entryBytes).join) := by
        have hlay2 := hlay
        rw [dirBytes, LayoutAt_append_iff] at hlay2
        exact hlay2.1
      apply LayoutAt_congr st.rom _ _ _ ?_ hpre
      intro i hi
      rw [join_map_length es hok] at hi
      exact hout (EEPROM_PROG_DIR_START + i) (by omega)
    · rw [join_map_length es hok]
      have hdb1 : dirBytes [{ name13 := name13, prog := progB }] =
          entryBytes { name13 := name13, prog := progB } ++ [0, 0] := by
        simp [dirBytes]
      rw [hdb1, LayoutAt_append_iff]
      constructor
      · intro i hi
        rw [hlenE] at hi
        have haddr : EEPROM_PROG_DIR_START + occ es + i = st.saveAddr + i := by
          omega
        rw [haddr]
        exact hin i hi
      · rw [hlenE, LayoutAt_cons_iff]
        constructor
        · have haddr : EEPROM_PROG_DIR_START + occ es +
              (progB.length + DIR_PROG_OFFS) =
              st.saveAddr + progB.length + DIR_PROG_OFFS := by omega
          rw [haddr]
          exact hsent0
        · rw [LayoutAt_cons_iff]
          constructor
          · have haddr : EEPROM_PROG_DIR_START + occ es +
                (progB.length + DIR_PROG_OFFS) + 1 =
                st.saveAddr + progB.length + DIR_PROG_OFFS + 1 := by omega
            rw [haddr]
            exact hsent1
          · exact LayoutAt_nil _ _
  · show st.saveAddr + progB.length + DIR_PROG_OFFS = _
    rw [hoccE]
    omega
  · show st.dirSpace - (progB.length + DIR_PROG_OFFS) = _
    rw [hoccE]
    omega

theorem wipeDirFileErase_inv (st : DirState) (es : List DirEnt)
    (name : List Nat) (hinv : DirInv st es) :
    ∃ es', DirInv (wipeDirFileErase st name) es' := by
  obtain ⟨⟨hok, hocc, hlay⟩, hsa, hds⟩ := hinv
  by_cases h0 : (wipeDirFileFind st.rom name).1 = 0
  · refine ⟨es, ?_⟩
    rw [wipeDirFileErase, if_pos h0]
    exact ⟨⟨hok, hocc, hlay⟩, hsa, hds⟩
  · have hL : EEPROM_PROG_LEN = 4078 := rfl
    have hlen : es.length < 300 := by
      have := sixteen_mul_length_le_occ es hok
      omega
    have hfind : wipeDirFileFind st.rom name =
        firstMatchFrom name es EEPROM_PROG_DIR_START := by
      rw [wipeDirFileFind]
      exact findLoop_layout es st.rom 300 EEPROM_PROG_DIR_START name hok hlen
        hlay (by omega)
    obtain ⟨pre, e, post, heq, hm, hpre, hra, hsz⟩ :=
      firstMatchFrom_found name es EEPROM_PROG_DIR_START
        (wipeDirFileFind st.rom name).1 (wipeDirFileFind st.rom name).2
        (by rw [hfind]) h0
    have hokpre : entsOk pre := fun x hx => hok x (by
      rw [heq]; exact List.mem_append.mpr (Or.inl hx))
    have hokpost : entsOk post := fun x hx => hok x (by rw [heq]; simp [hx])
    have hoke : e.name13.length = 13 ∧ 1 ≤ e.prog.length :=
      hok e (by rw [heq]; simp)
    have hokres : entsOk (pre ++ post) := by
      intro x hx
      rcases List.mem_append.mp hx with h1 | h2
      · exact hokpre x h1
      · exact hokpost x h2
    have hocceq : occ es =
        occ pre + (e.prog.length + DIR_PROG_OFFS) + occ post := by
      rw [heq, occ_append, occ_cons]
      omega
    have hjlPre : ((pre.map entryBytes).join).length = occ pre :=
      join_map_length pre hokpre
    have hjlPost : ((post.map entryBytes).join).length = occ post :=
      join_map_length post hokpost
    have hdblPost : (dirBytes post).length = occ post + 2 :=
      dirBytes_length post hokpost
    have hlayL := hlay
    rw [heq, dirBytes_append, LayoutAt_append_iff] at hlayL
    obtain ⟨hlayPre, hlayL2⟩ := hlayL
    rw [dirBytes_cons, LayoutAt_append_iff] at hlayL2
    obtain ⟨hlayE, hlayPost⟩ := hlayL2
    have hlayPost2 : LayoutAt st.rom (EEPROM_PROG_DIR_START + occ pre +
        e.prog.length + DIR_PROG_OFFS) (dirBytes post) := by
      have haddr : EEPROM_PROG_DIR_START + occ pre + e.prog.length +
          DIR_PROG_OFFS = EEPROM_PROG_DIR_START +
            ((pre.map entryBytes).join).length + (entryBytes e).length := by
        rw [hjlPre, entryBytes_length e hoke.1]
        omega
      rw [haddr]
      exact hlayPost
    have hn2 : (EEPROM_PROG_LEN - st.dirSpace) -
        (e.prog.length + DIR_PROG_OFFS) = occ pre + occ post := by
      rw [hds]
      omega
    have hsa2 : st.saveAddr - (e.prog.length + DIR_PROG_OFFS) =
        EEPROM_PROG_DIR_START + (occ pre + occ post) := by
      rw [hsa]
      omega
    have hrw2 : wipeDirFileErase st name =
        { rom := ewrite (ewrite (ecopy st.rom
            (EEPROM_PROG_DIR_START + occ pre)
            (EEPROM_PROG_DIR_START + occ pre + e.prog.length + DIR_PROG_OFFS)
            (occ pre + occ post))
            (EEPROM_PROG_DIR_START + (occ pre + occ post)) 0)
            (EEPROM_PROG_DIR_START + (occ pre + occ post) + 1) 0,
          saveAddr := EEPROM_PROG_DIR_START + (occ pre + occ post),
          dirSpace := st.dirSpace + e.prog.length + DIR_PROG_OFFS } := by
      rw [wipeDirFileErase, if_neg h0, hra, hsz, hn2, hsa2]
    have hcopy := eread_ecopy (occ pre + occ post) st.rom
      (EEPROM_PROG_DIR_START + occ pre)
      (EEPROM_PROG_DIR_START + occ pre + e.prog.length + DIR_PROG_OFFS)
      (by omega)
    have hgd0 : (dirBytes post).getD (occ post) 0 = 0 := by
      rw [dirBytes, List.getD_append_right]
      · rw [hjlPost]
        simp
      · rw [hjlPost]
    have hgd1 : (dirBytes post).getD (occ post + 1) 0 = 0 := by
      rw [dirBytes, List.getD_append_right]
      · rw [hjlPost]
        simp
      · rw [hjlPost]
        omega
    have hlayNew : LayoutAt (ewrite (ewrite (ecopy st.rom
        (EEPROM_PROG_DIR_START + occ pre)
        (EEPROM_PROG_DIR_START + occ pre + e.prog.length + DIR_PROG_OFFS)
        (occ pre + occ post))
        (EEPROM_PROG_DIR_START + (occ pre + occ post)) 0)
        (EEPROM_PROG_DIR_START + (occ pre + occ post) + 1) 0)
        EEPROM_PROG_DIR_START (dirBytes (pre ++ post)) := by
      rw [dirBytes_append, LayoutAt_append_iff]
      constructor
      · apply LayoutAt_congr st.rom _ _ _ ?_ hlayPre
        intro i hi
        rw [hjlPre] at hi
        rw [eread_ewrite_ne _ _ _ _ (by omega),
          eread_ewrite_ne _ _ _ _ (by omega),
          (hcopy.2 (EEPROM_PROG_DIR_START + i) (Or.inl (by omega)))]
      · rw [hjlPre]
        intro k hk
        rw [hdblPost] at hk
        rcases Nat.lt_or_ge k (occ post) with hklt | hkge
        · rw [eread_ewrite_ne _ _ _ _ (by omega),
            eread_ewrite_ne _ _ _ _ (by omega), hcopy.1 k (by omega)]
          exact hlayPost2 k (by omega)
        · have hk2 : k = occ post ∨ k = occ post + 1 := by omega
          rcases hk2 with hk2 | hk2
          · subst hk2
            have haddr : EEPROM_PROG_DIR_START + occ pre + occ post =
                EEPROM_PROG_DIR_START + (occ pre + occ post) := by omega
            rw [haddr, eread_ewrite_ne _ _ _ _ (by omega), eread_ewrite_eq,
              hgd0]
          · subst hk2
            have haddr : EEPROM_PROG_DIR_START + occ pre + (occ post + 1) =
                EEPROM_PROG_DIR_START + (occ pre + occ post) + 1 := by omega
            rw [haddr, eread_ewrite_eq, hgd1]
    refine ⟨pre ++ post, ?_⟩
    rw [hrw2]
    have hoccBound : occ (pre ++ post) ≤ EEPROM_PROG_LEN := by
      rw [occ_append]
      omega
    have hsaNew : EEPROM_PROG_DIR_START + (occ pre + occ post) =
        EEPROM_PROG_DIR_START + occ (pre ++ post) := by
      rw [occ_append]
    have hdsNew : st.dirSpace + e.prog.length + DIR_PROG_OFFS =
        EEPROM_PROG_LEN - occ (pre ++ post) := by
      rw [occ_append]
      omega
    exact ⟨⟨hokres, hoccBound, hlayNew⟩, hsaNew, hdsNew⟩

theorem saveCmd_inv (st : DirState) (es : List DirEnt)
    (name junk progB : List Nat) (hinv : DirInv st es)
    (hp : 1 ≤ progB.length) :
    ∃ es', DirInv (saveCmd st name junk progB) es' := by
  rw [saveCmd]
  by_cases h1 : progB.length + DIR_PROG_OFFS > st.dirSpace
  · rw [if_pos h1]
    exact ⟨es, hinv⟩
  · rw [if_neg h1]
    by_cases h2 : (wipeDirFileFind st.rom name).1 ≠ 0
    · rw [if_pos h2]
      exact ⟨es, hinv⟩
    · rw [if_neg h2]
      exact ⟨es ++ [{ name13 := namePad13 name junk, prog := progB }],
        wipeDirFileSave_inv st es (namePad13 name junk) progB hinv
          (namePad13_length name junk) hp (by omega)⟩

theorem applyDirOp_inv (st : DirState) (es : List DirEnt) (op : DirOp)
    (hinv : DirInv st es) (hop : saveNonempty op) :
    ∃ es', DirInv (applyDirOp st op) es' := by
  cases op with
  | saveOp name junk progB => exact saveCmd_inv st es name junk progB hinv hop
  | eraseOp name => exact wipeDirFileErase_inv st es name hinv

theorem applyDirOps_inv (ops : List DirOp) :
    ∀ (st : DirState) (es : List DirEnt),
    DirInv st es → (∀ op ∈ ops, saveNonempty op) →
    ∃ es', DirInv (applyDirOps st ops) es' := by
  induction ops with
  | nil => intro st es hinv _; exact ⟨es, hinv⟩
  | cons op ops ih =>
      intro st es hinv hops
      obtain ⟨es1, h1⟩ := applyDirOp_inv st es op hinv (hops op (by simp))
      exact ih (applyDirOp st op) es1 h1 (fun o ho => hops o (by simp [ho]))

theorem dirInv_visible (st : DirState) (es : List DirEnt)
    (hinv : DirInv st es) :
    st.dirSpace + ((visiblePrograms st.rom).map
      (fun sz => sz + DIR_PROG_OFFS)).sum = EEPROM_PROG_LEN := by
  obtain ⟨⟨hok, hocc, hlay⟩, _, hds⟩ := hinv
  have hL : EEPROM_PROG_LEN = 4078 := rfl
  have hlen : es.length < 300 := by
    have := sixteen_mul_length_le_occ es hok
    omega
  have hv : visiblePrograms st.rom = es.map (fun e => e.prog.length) := by
    rw [visiblePrograms]
    exact visibleSizes_layout es st.rom 300 EEPROM_PROG_DIR_START hok hlen
      hlay (by omega)
  rw [hv, hds, List.map_map]
  have hsum : (es.map ((fun sz => sz + DIR_PROG_OFFS) ∘
      (fun e => e.prog.length))).sum = occ es := rfl
  rw [hsum]
  omega

theorem range_map_eq (l : List Nat) (f : Nat → Nat)
    (h : ∀ i, i < l.length → f i = l.getD i 0) :
    (List.range l.length).map f = l := by
  apply List.ext_getElem
  · simp
  · intro i h1 h2
    rw [List.getElem_map, List.getElem_range]
    rw [h i h2, List.getD_eq_getElem?_getD, List.getElem?_eq_getElem h2]
    rfl

/-- C5: for every non-empty Program Buffer, saving it under a fresh name
(the WIPE_CMD_SAVE arm with its space and duplicate-name guards passed)
and then loading that name reproduces exactly the saved program bytes:
save followed by load is the identity on the buffer contents and occupied
length. -/
theorem save_then_load (st : DirState) (es : List DirEnt)
    (name junk progB : List Nat) (hinv : DirInv st es)
    (hname : name.length ≤ 12) (hp : 1 ≤ progB.length)
    (hsp : progB.length + DIR_PROG_OFFS ≤ st.dirSpace)
    (hfresh : (wipeDirFileFind st.rom name).1 = 0) :
    wipeDirFileLoad (saveCmd st name junk progB).rom name = some progB := by
  have hok := hinv.1.1
  have hocc := hinv.1.2.1
  have hlay := hinv.1.2.2
  have hL : EEPROM_PROG_LEN = 4078 := rfl
  have hS : EEPROM_PROG_DIR_START = 17 := rfl
  have hred : saveCmd st name junk progB =
      wipeDirFileSave st (namePad13 name junk) progB := by
    rw [saveCmd, if_neg (by omega), if_neg (by simp [hfresh])]
  have hinv' := wipeDirFileSave_inv st es (namePad13 name junk) progB hinv
    (namePad13_length name junk) hp hsp
  have hok' := hinv'.1.1
  have hocc' := hinv'.1.2.1
  have hlay' := hinv'.1.2.2
  have hlen : es.length < 300 := by
    have := sixteen_mul_length_le_occ es hok
    omega
  have hlen' :
      (es ++ [DirEnt.mk (namePad13 name junk) progB]).length < 300 := by
    have := sixteen_mul_length_le_occ _ hok'
    omega
  have hfindOld : wipeDirFileFind st.rom name =
      firstMatchFrom name es EEPROM_PROG_DIR_START := by
    rw [wipeDirFileFind]
    exact findLoop_layout es st.rom 300 EEPROM_PROG_DIR_START name hok hlen
      hlay (by omega)
  have hno : ∀ e ∈ es, entNameMatch name e = false :=
    firstMatchFrom_zero name es EEPROM_PROG_DIR_START (by decide)
      (by rw [← hfindOld]; exact hfresh)
  have hfind' :
      wipeDirFileFind (wipeDirFileSave st (namePad13 name junk) progB).rom
        name = firstMatchFrom name
          (es ++ [DirEnt.mk (namePad13 name junk) progB])
          EEPROM_PROG_DIR_START := by
    rw [wipeDirFileFind]
    exact findLoop_layout _ _ 300 EEPROM_PROG_DIR_START name hok' hlen'
      hlay' (by omega)
  have hfm : firstMatchFrom name
      (es ++ [DirEnt.mk (namePad13 name junk) progB])
      EEPROM_PROG_DIR_START =
      (EEPROM_PROG_DIR_START + occ es, progB.length) := by
    rw [firstMatchFrom_append_no name es _ EEPROM_PROG_DIR_START hno]
    have hstep : firstMatchFrom name [DirEnt.mk (namePad13 name junk) progB]
        (EEPROM_PROG_DIR_START + occ es) =
        if entNameMatch name (DirEnt.mk (namePad13 name junk) progB)
        then (EEPROM_PROG_DIR_START + occ es, progB.length)
        else (0, 0) := rfl
    rw [hstep, if_pos (entNameMatch_namePad13 name junk progB hname)]
  have hfind2 :
      wipeDirFileFind (wipeDirFileSave st (namePad13 name junk) progB).rom
        name = (EEPROM_PROG_DIR_START + occ es, progB.length) := by
    rw [hfind', hfm]
  have hlayE' : LayoutAt
      (wipeDirFileSave st (namePad13 name junk) progB).rom
      (EEPROM_PROG_DIR_START + occ es)
      (entryBytes (DirEnt.mk (namePad13 name junk) progB)) := by
    have h := hlay'
    rw [dirBytes_append, LayoutAt_append_iff] at h
    have h2 := h.2
    rw [join_map_length es hok] at h2
    have hdb1 : dirBytes [DirEnt.mk (namePad13 name junk) progB] =
        entryBytes (DirEnt.mk (namePad13 name junk) progB) ++ [0, 0] := by
      simp [dirBytes]
    rw [hdb1, LayoutAt_append_iff] at h2
    exact h2.1
  have hreads := (entry_reads _ _ _ (namePad13_length name junk) hlayE').2.2
  have hload : wipeDirFileLoad
      (wipeDirFileSave st (namePad13 name junk) progB).rom name =
      if (EEPROM_PROG_DIR_START + occ es) = 0 then none
      else some ((List.range progB.length).map (fun i =>
        eread (wipeDirFileSave st (namePad13 name junk) progB).rom
          (EEPROM_PROG_DIR_START + occ es + DIR_PROG_OFFS + i))) := by
    rw [wipeDirFileLoad, hfind2]
  rw [hred, hload, if_neg (by omega)]
  refine congrArg some ?_
  apply range_map_eq
  intro i hi
  exact hreads i hi

theorem save_then_load_witness :
    DirInv (DirState.mk (fun _ => 0) 17 4078) [] ∧
    wipeDirFileLoad
      (saveCmd (DirState.mk (fun _ => 0) 17 4078) [65] [] [10, 0]).rom
      [65] = some [10, 0] := by
  have hinv : DirInv (DirState.mk (fun _ => 0) 17 4078)
      ([] : List DirEnt) := by
    refine ⟨⟨fun e he => absurd he (List.not_mem_nil e), by decide, ?_⟩,
      rfl, rfl⟩
    intro i hi
    have h2 : (dirBytes ([] : List DirEnt)).length = 2 := rfl
    rw [h2] at hi
    interval_cases i <;> rfl
  exact ⟨hinv, save_then_load _ [] [65] [] [10, 0] hinv (by decide)
    (by decide) (by decide) (by decide)⟩

/-- C9 counterexample: starting from a well-formed empty directory, the
console save of an EMPTY program buffer passes both guards (15 bytes fit
and the name is fresh), writes a zero size field indistinguishable from
the sentinel, and decrements the free-space counter by 15; the walk then
sees no saved program, so counter plus per-program sums no longer equals
the region capacity. -/
theorem dir_free_space_counterexample :
    DirOk (fun _ => 0) [] ∧
    (applyDirOps (initDirState (fun _ => 0))
        [DirOp.saveOp [65] [] []]).dirSpace +
      ((visiblePrograms (applyDirOps (initDirState (fun _ => 0))
        [DirOp.saveOp [65] [] []]).rom).map
        (fun sz => sz + DIR_PROG_OFFS)).sum ≠ EEPROM_PROG_LEN := by
  constructor
  · refine ⟨fun e he => absurd he (List.not_mem_nil e), by decide, ?_⟩
    intro i hi
    have h2 : (dirBytes ([] : List DirEnt)).length = 2 := rfl
    rw [h2] at hi
    interval_cases i <;> rfl
  · decide

/-- C9 (amended: every saved program is non-empty): starting from any
well-formed directory image, after the boot scan and every sequence of
save and erase console commands whose saves store non-empty programs, the
free-space counter plus the sum over all walk-visible saved programs of
(payload size + 15-byte directory header) equals the 4078-byte capacity
of the persistent program-storage region. -/
theorem dir_free_space_accounting (rom : Eeprom) (es : List DirEnt)
    (ops : List DirOp) (h : DirOk rom es)
    (hops : ∀ op ∈ ops, saveNonempty op) :
    (applyDirOps (initDirState rom) ops).dirSpace +
      ((visiblePrograms (applyDirOps (initDirState rom) ops).rom).map
        (fun sz => sz + DIR_PROG_OFFS)).sum = EEPROM_PROG_LEN := by
  obtain ⟨es', hinv'⟩ := applyDirOps_inv ops (initDirState rom) es
    (initDirState_inv rom es h) hops
  exact dirInv_visible _ es' hinv'

theorem dir_free_space_accounting_witness :
    DirOk (fun _ => 0) [] ∧
    (applyDirOps (initDirState (fun _ => 0))
        [DirOp.saveOp [65] [] [10]]).dirSpace +
      ((visiblePrograms (applyDirOps (initDirState (fun _ => 0))
        [DirOp.saveOp [65] [] [10]]).rom).map
        (fun sz => sz + DIR_PROG_OFFS)).sum = EEPROM_PROG_LEN := by
  have h : DirOk (fun _ => 0) [] := by
    refine ⟨fun e he => absurd he (List.not_mem_nil e), by decide, ?_⟩
    intro i hi
    have h2 : (dirBytes ([] : List DirEnt)).length = 2 := rfl
    rw [h2] at hi
    interval_cases i <;> rfl
  refine ⟨h, dir_free_space_accounting (fun _ => 0) [] _ h ?_⟩
  intro op hop
  have hop2 : op = DirOp.saveOp [65] [] [10] := by simpa using hop
  rw [hop2]
  show 1 ≤ [10].length
  decide

end WASP
